import Mathlib

/-!
Shallow embedding of the buffer / cursor / search / tokenizer core of a terminal
text editor (source: src/text.rs).  Strings are modelled as `List Char`, machine
integers (`u16`, `usize`) as `Nat`; the 16-bit wrap-around of `u16` arithmetic is
modelled explicitly (`wadd` / `wsub`) in `Cursor.change_offset`, the one place the
source can underflow.  Fallible operations (Rust code that can panic on an
out-of-range index or slice) return `Option`, `none` standing for the panic.
-/

set_option maxHeartbeats 1000000

namespace TextEditor

/-- Lexical classification of one character, mirroring `enum HighlightType`. -/
inductive HighlightType where
  | Standard
  | Identity
  | Keyword
  | Number
  | Bracket
  | String
  | Comment
  | SearchResult
deriving DecidableEq, Repr

/-- Helper for `word_len`: the source loop carries the running length `len`
(here `pos`), because a digit is accepted only when `len > 0`. -/
def word_len_aux : List Char → Nat → Nat
  | [], _ => 0
  | c :: rest, pos =>
    if c.isAlpha ∨ c = '_' ∨ (c.isDigit ∧ 0 < pos) then 1 + word_len_aux rest (pos + 1)
    else 0

/-- Mirrors `SyntaxHighlight::word_len`. -/
def word_len (chars : List Char) : Nat := word_len_aux chars 0

/-- Helper for `number_len`, carrying the running length. -/
def number_len_aux : List Char → Nat → Nat
  | [], _ => 0
  | c :: rest, pos =>
    if c.isDigit ∨ (0 < pos ∧ (c = '_' ∨ c = '.')) then 1 + number_len_aux rest (pos + 1)
    else 0

/-- Mirrors `SyntaxHighlight::number_len`. -/
def number_len (chars : List Char) : Nat := number_len_aux chars 0

/-- The `while` loop of `string_len`: `q` is the opening quote, the boolean is
the `is_escaped` flag; the count includes the closing quote when one is found. -/
def string_len_aux (q : Char) : List Char → Bool → Nat
  | [], _ => 0
  | c :: rest, esc =>
    1 + (if esc = false ∧ c = q then 0 else string_len_aux q rest (decide (c = '\\' ∧ esc = false)))

/-- Mirrors `SyntaxHighlight::string_len`.  The source reads `chars[0]` and is
only ever called on a non-empty slice; the `[]` case is an unreached total
extension. -/
def string_len : List Char → Nat
  | [] => 0
  | c :: rest => if c = '"' ∨ c = '\'' then 1 + string_len_aux c rest false else 0

/-- Mirrors `SyntaxHighlight::match_sequence` (length check plus per-char
comparison, i.e. exactly the prefix test). -/
def match_sequence (chars seq : List Char) : Bool := seq.isPrefixOf chars

/-- The tail loop of `single_line_comment_len`: consume up to and including the
next newline. -/
def eat_to_newline : List Char → Nat
  | [] => 0
  | c :: rest => 1 + (if c = '\n' then 0 else eat_to_newline rest)

/-- Mirrors `SyntaxHighlight::single_line_comment_len` specialised to the only
start sequence the source uses, `"//"`. -/
def single_line_comment_len (chars : List Char) : Nat :=
  if match_sequence chars ['/', '/'] then 2 + eat_to_newline (chars.drop 2) else 0

/-- The depth-counting loop of `multi_line_comment_len` specialised to
`start = "/*"`, `end = "*/"`.  `depth` is an `Int` because the source uses a
signed integer and `depth -= 1` can drive it below zero (after which the loop
only stops at the end of input).  The loop consumes at least one character per
iteration, so it is given explicit fuel (one unit per remaining character);
with fuel `≥ rem.length` the fuel never runs out before the loop's own exit
conditions fire, so this is the loop's exact behaviour. -/
def multi_comment_aux : Nat → List Char → Int → Nat
  | 0, _, _ => 0
  | _ + 1, [], _ => 0
  | fuel + 1, c :: rest, depth =>
    if match_sequence (c :: rest) ['/', '*'] then
      2 + multi_comment_aux fuel ((c :: rest).drop 2) (depth + 1)
    else if match_sequence (c :: rest) ['*', '/'] then
      2 + multi_comment_aux fuel ((c :: rest).drop 2) (depth - 1)
    else if depth = 0 then 0
    else 1 + multi_comment_aux fuel rest depth

/-- Mirrors `SyntaxHighlight::multi_line_comment_len` for `"/*"` / `"*/"`. -/
def multi_line_comment_len (chars : List Char) : Nat :=
  if match_sequence chars ['/', '*'] then
    2 + multi_comment_aux (chars.drop 2).length (chars.drop 2) 1
  else 0

/-- Mirrors `SyntaxHighlight::is_bracket`. -/
def is_bracket (c : Char) : Bool := c ∈ ['(', ')', '\x7b', '\x7d', '[', ']']

/-- The keyword set of `RustSyntax::update_syntax`. -/
def keywords : List (List Char) :=
  ["impl".toList, "fn".toList, "pub".toList, "struct".toList, "enum".toList,
   "trait".toList, "use".toList, "for".toList, "if".toList, "while".toList,
   "else".toList, "break".toList, "return".toList, "continue".toList,
   "mod".toList, "macro_rules".toList, "true".toList, "false".toList,
   "loop".toList, "match".toList, "let".toList, "as".toList, "mut".toList]

/-- One iteration of the scanning loop of `RustSyntax::update_syntax`: at the
current position (`chars` is the remaining suffix, non-empty in the source), try
the rules in the source's order — word, number, string, bracket, comment — and
fall back to a single `Standard` character.  Returns the chosen tag and the
number of characters consumed. -/
def tokenStep (chars : List Char) : HighlightType × Nat :=
  if 0 < word_len chars then
    (if chars.take (word_len chars) ∈ keywords then HighlightType.Keyword
     else HighlightType.Identity, word_len chars)
  else if 0 < number_len chars then (HighlightType.Number, number_len chars)
  else if 0 < string_len chars then (HighlightType.String, string_len chars)
  else if is_bracket (chars.headD ' ') then (HighlightType.Bracket, 1)
  else if 0 < max (single_line_comment_len chars) (multi_line_comment_len chars) then
    (HighlightType.Comment, max (single_line_comment_len chars) (multi_line_comment_len chars))
  else (HighlightType.Standard, 1)

theorem tokenStep_pos (chars : List Char) : 0 < (tokenStep chars).2 := by
  unfold tokenStep
  split_ifs <;> simp_all

theorem word_len_aux_le (chars : List Char) (pos : Nat) :
    word_len_aux chars pos ≤ chars.length := by
  induction chars generalizing pos with
  | nil => simp [word_len_aux]
  | cons c rest ih =>
    simp only [word_len_aux, List.length_cons]
    split_ifs
    · have := ih (pos + 1); omega
    · omega

theorem number_len_aux_le (chars : List Char) (pos : Nat) :
    number_len_aux chars pos ≤ chars.length := by
  induction chars generalizing pos with
  | nil => simp [number_len_aux]
  | cons c rest ih =>
    simp only [number_len_aux, List.length_cons]
    split_ifs
    · have := ih (pos + 1); omega
    · omega

theorem string_len_aux_le (q : Char) (chars : List Char) (esc : Bool) :
    string_len_aux q chars esc ≤ chars.length := by
  induction chars generalizing esc with
  | nil => simp [string_len_aux]
  | cons c rest ih =>
    simp only [string_len_aux, List.length_cons]
    split_ifs
    · omega
    · have := ih (decide (c = '\\' ∧ esc = false)); omega

theorem string_len_le (chars : List Char) : string_len chars ≤ chars.length := by
  cases chars with
  | nil => simp [string_len]
  | cons c rest =>
    simp only [string_len, List.length_cons]
    split_ifs
    · have := string_len_aux_le c rest false; omega
    · omega

theorem eat_to_newline_le (chars : List Char) : eat_to_newline chars ≤ chars.length := by
  induction chars with
  | nil => simp [eat_to_newline]
  | cons c rest ih =>
    simp only [eat_to_newline, List.length_cons]
    split_ifs <;> omega

theorem match_sequence_length {chars seq : List Char} (h : match_sequence chars seq = true) :
    seq.length ≤ chars.length := by
  have : seq <+: chars := List.isPrefixOf_iff_prefix.mp h
  exact this.length_le

theorem single_line_comment_len_le (chars : List Char) :
    single_line_comment_len chars ≤ chars.length := by
  unfold single_line_comment_len
  split_ifs with h
  · have h2 : 2 ≤ chars.length := match_sequence_length h
    have := eat_to_newline_le (chars.drop 2)
    simp only [List.length_drop] at this
    omega
  · omega

theorem multi_comment_aux_le :
    ∀ (fuel : Nat) (cs : List Char) (d : Int), multi_comment_aux fuel cs d ≤ cs.length := by
  intro fuel
  induction fuel with
  | zero => intro cs d; simp [multi_comment_aux]
  | succ n ih =>
    intro cs d
    match cs with
    | [] => simp [multi_comment_aux]
    | c :: rest =>
      rw [multi_comment_aux]
      split_ifs with h1 h2 h3
      · have hlen : 2 ≤ (c :: rest).length := match_sequence_length h1
        have hrec := ih (List.drop 2 (c :: rest)) (d + 1)
        simp only [List.length_drop, List.length_cons] at hrec hlen ⊢
        omega
      · have hlen : 2 ≤ (c :: rest).length := match_sequence_length h2
        have hrec := ih (List.drop 2 (c :: rest)) (d - 1)
        simp only [List.length_drop, List.length_cons] at hrec hlen ⊢
        omega
      · simp
      · have hrec := ih rest d
        simp only [List.length_cons]
        omega

theorem multi_line_comment_len_le (chars : List Char) :
    multi_line_comment_len chars ≤ chars.length := by
  unfold multi_line_comment_len
  split_ifs with h
  · have h2 : 2 ≤ chars.length := match_sequence_length h
    have hb := multi_comment_aux_le (chars.drop 2).length (chars.drop 2) 1
    have h3 : (chars.drop 2).length = chars.length - 2 := by simp
    omega
  · omega

theorem tokenStep_le (c : Char) (rest : List Char) :
    (tokenStep (c :: rest)).2 ≤ (c :: rest).length := by
  unfold tokenStep
  have hw := word_len_aux_le (c :: rest) 0
  have hn := number_len_aux_le (c :: rest) 0
  have hs := string_len_le (c :: rest)
  have h1 := single_line_comment_len_le (c :: rest)
  have h2 := multi_line_comment_len_le (c :: rest)
  simp only [word_len, number_len] at *
  split_ifs <;> simp_all <;> omega

/-- The scanning loop of `RustSyntax::update_syntax` with explicit fuel (one
unit per remaining character; every token consumes at least one character, so
fuel `≥ chars.length` reproduces the loop exactly): repeatedly classify a
token at the current position and emit one copy of its tag per consumed
character. -/
def scanAux : Nat → List Char → List HighlightType
  | 0, _ => []
  | _ + 1, [] => []
  | fuel + 1, c :: rest =>
    match tokenStep (c :: rest) with
    | (t, n) => List.replicate n t ++ scanAux fuel (List.drop n (c :: rest))

/-- The full scanning loop of `RustSyntax::update_syntax`. -/
def scanChars (chars : List Char) : List HighlightType := scanAux chars.length chars

theorem scanAux_nil (fuel : Nat) : scanAux fuel [] = [] := by
  cases fuel <;> rfl

theorem scanAux_eq_of_le :
    ∀ (f₁ : Nat) (cs : List Char) (f₂ : Nat), cs.length ≤ f₁ → cs.length ≤ f₂ →
      scanAux f₁ cs = scanAux f₂ cs := by
  intro f₁
  induction f₁ with
  | zero =>
    intro cs f₂ h₁ _
    have : cs = [] := List.length_eq_zero.mp (Nat.le_zero.mp h₁)
    subst this
    rw [scanAux_nil, scanAux_nil]
  | succ n ih =>
    intro cs f₂ h₁ h₂
    match cs with
    | [] => rw [scanAux_nil, scanAux_nil]
    | c :: rest =>
      match f₂, h₂ with
      | m + 1, h₂ =>
        rcases htok : tokenStep (c :: rest) with ⟨t, k⟩
        have hpk : 0 < k := by
          have := tokenStep_pos (c :: rest)
          rw [htok] at this
          exact this
        rw [scanAux, scanAux]
        simp only [htok]
        congr 1
        exact ih (List.drop k (c :: rest)) m
          (by simp only [List.length_drop, List.length_cons] at h₁ ⊢; omega)
          (by simp only [List.length_drop, List.length_cons] at h₂ ⊢; omega)

/-- One-step unfolding of the scanner on a non-empty suffix. -/
theorem scanChars_cons (c : Char) (rest : List Char) :
    scanChars (c :: rest) =
      List.replicate (tokenStep (c :: rest)).2 (tokenStep (c :: rest)).1 ++
        scanChars (List.drop (tokenStep (c :: rest)).2 (c :: rest)) := by
  unfold scanChars
  rcases htok : tokenStep (c :: rest) with ⟨t, k⟩
  have hpk : 0 < k := by
    have := tokenStep_pos (c :: rest)
    rw [htok] at this
    exact this
  have hlek : k ≤ (c :: rest).length := by
    have := tokenStep_le c rest
    rw [htok] at this
    exact this
  rw [show (c :: rest).length = rest.length + 1 from by simp, scanAux]
  simp only [htok]
  congr 1
  exact scanAux_eq_of_le rest.length (List.drop k (c :: rest))
    (List.drop k (c :: rest)).length
    (by simp only [List.length_drop, List.length_cons] at hlek ⊢; omega) le_rfl

theorem scanChars_length (chars : List Char) : (scanChars chars).length = chars.length := by
  have key : ∀ (fuel : Nat) (cs : List Char), cs.length ≤ fuel →
      (scanChars cs).length = cs.length := by
    intro fuel
    induction fuel with
    | zero =>
      intro cs h
      have : cs = [] := List.length_eq_zero.mp (Nat.le_zero.mp h)
      subst this
      simp [scanChars, scanAux_nil]
    | succ n ih =>
      intro cs h
      match cs with
      | [] => simp [scanChars, scanAux_nil]
      | c :: rest =>
        rw [scanChars_cons]
        have hp := tokenStep_pos (c :: rest)
        have hle := tokenStep_le c rest
        have := ih (List.drop (tokenStep (c :: rest)).2 (c :: rest))
          (by simp [List.length_drop] at h ⊢; omega)
        simp only [List.length_append, List.length_replicate, List.length_drop, this]
        simp at hle ⊢
        omega
  exact key chars.length chars le_rfl

/-- One document row, mirroring `struct Line`: content plus per-character tags. -/
structure Line where
  content : List Char
  highlight_types : List HighlightType
deriving DecidableEq, Repr

/-- Mirrors `Line::new`. -/
def Line.new (content : List Char) : Line := ⟨content, []⟩

/-- Mirrors `Line::blank`. -/
def Line.blank : Line := ⟨[], []⟩

/-- Mirrors `Line::len` (byte length of the content). -/
def Line.len (l : Line) : Nat := l.content.length

/-- Mirrors `Line::insert` (`String::insert_str`, which panics when the index
is past the end — modelled by `none`). -/
def Line.insert (l : Line) (index : Nat) (s : List Char) : Option Line :=
  if index ≤ l.content.length then
    some ⟨l.content.take index ++ s ++ l.content.drop index, l.highlight_types⟩
  else none

/-- Mirrors `Line::delete_char` (`String::remove`, which panics when the index
is out of range — modelled by `none`). -/
def Line.delete_char (l : Line) (index : Nat) : Option Line :=
  if index < l.content.length then some ⟨l.content.eraseIdx index, l.highlight_types⟩
  else none

/-- Mirrors `Line::append` (`push_str` of the other line's content). -/
def Line.append (l other : Line) : Line :=
  ⟨l.content ++ other.content, l.highlight_types⟩

/-- Mirrors `Line::split_at`: the receiver keeps `[..index]`, the returned line
gets `[index..]`; slicing panics past the end (`none`). -/
def Line.split_at (l : Line) (index : Nat) : Option (Line × Line) :=
  if index ≤ l.content.length then
    some (⟨l.content.take index, l.highlight_types⟩, Line.new (l.content.drop index))
  else none

/-- Substring search, mirroring `str::find`: the first offset at which `pat`
occurs in `hay`. -/
def findSub : List Char → List Char → Option Nat
  | [], pat => if pat.isPrefixOf [] then some 0 else none
  | a :: t, pat =>
    if pat.isPrefixOf (a :: t) then some 0
    else Option.map (fun n => n + 1) (findSub t pat)

/-- Mirrors `Line::find_phrase`: `self.content[start..].find(phrase)`.  The
slice panics when `start` is past the end, hence the outer `Option`. -/
def Line.find_phrase (l : Line) (phrase : List Char) (start : Nat) : Option (Option Nat) :=
  if start ≤ l.content.length then some (findSub (l.content.drop start) phrase)
  else none

/-- The tag-redistribution loop at the end of `RustSyntax::update_syntax`
(`for i in 0..chars.len()`): walk `chars` and the scanned tags in lockstep; a
`'\n'` advances `line_index` without reading a tag, any other character pushes
`highlight_types[i]` onto line `line_index`.  Reading a missing tag or pushing
onto a missing line is a panic (`none`). -/
def applyTags : List Char → List HighlightType → Nat → List (List HighlightType) →
    Option (List (List HighlightType))
  | [], _, _, acc => some acc
  | c :: cs, ts, li, acc =>
    if c = '\n' then applyTags cs (ts.drop 1) (li + 1) acc
    else
      match ts with
      | [] => none
      | t :: ts' =>
        if li < acc.length then applyTags cs ts' li (acc.set li (acc.getD li [] ++ [t]))
        else none

/-- Mirrors `RustSyntax::update_syntax`: concatenate all lines (a `'\n'` pushed
after each), scan, then redistribute the tags into the lines; contents are
untouched. -/
def update_syntax_lines (lines : List Line) : Option (List Line) :=
  match applyTags ((lines.map (fun l => l.content ++ ['\n'])).flatten)
      (scanChars ((lines.map (fun l => l.content ++ ['\n'])).flatten)) 0
      (lines.map (fun _ => [])) with
  | none => none
  | some tagLists => some (List.zipWith (fun l tags => ⟨l.content, tags⟩) lines tagLists)

/-- The document buffer, mirroring `struct Text`.  The source also stores
`syntax_highlight : Option<Box<dyn SyntaxHighlight>>`, which is always
`Some(RustSyntax)` (set in `Text::new` and never overwritten), so it is elided
here and `update_syntax` always runs the `RustSyntax` scanner. -/
structure Text where
  lines : List Line
deriving DecidableEq, Repr

/-- Mirrors `Text::new`. -/
def Text.new : Text := ⟨[Line.blank]⟩

/-- Mirrors `Text::len` (number of lines). -/
def Text.len (t : Text) : Nat := t.lines.length

/-- Mirrors `Text::line_len`: the length of line `index`, 0 when out of range. -/
def Text.line_len (t : Text) (index : Nat) : Nat :=
  if index < Text.len t then (t.lines.getD index Line.blank).content.length else 0

/-- Mirrors `Text::update_syntax` (Option-valued because the redistribution
loop can panic on malformed line contents). -/
def Text.update_syntax_opt (t : Text) : Option Text :=
  match update_syntax_lines t.lines with
  | none => none
  | some lines' => some ⟨lines'⟩

/-- Mirrors `Text::find_phrase`: `self.lines[index].find_phrase(phrase, start)`.
The indexing is NOT bounds-checked in the source; an out-of-range `index`
panics (`none`). -/
def Text.find_phrase (t : Text) (phrase : List Char) (index start : Nat) : Option (Option Nat) :=
  match t.lines.get? index with
  | none => none
  | some l => Line.find_phrase l phrase start

theorem applyTags_length :
    ∀ (cs : List Char) (ts : List HighlightType) (li : Nat)
      (acc res : List (List HighlightType)),
      applyTags cs ts li acc = some res → res.length = acc.length := by
  intro cs
  induction cs with
  | nil => intro ts li acc res h; simp [applyTags] at h; simp [h]
  | cons c cs ih =>
    intro ts li acc res h
    by_cases h1 : c = '\n'
    · simp only [applyTags, if_pos h1] at h
      exact ih _ _ _ _ h
    · match ts with
      | [] => simp [applyTags, h1] at h
      | t :: ts' =>
        simp only [applyTags, if_neg h1] at h
        by_cases h2 : li < acc.length
        · simp only [if_pos h2] at h
          have := ih _ _ _ _ h
          simpa using this
        · simp [if_neg h2] at h

theorem list_set_getD {α : Type} (d : α) :
    ∀ (l : List α) (i : Nat), i < l.length → l.set i (l.getD i d) = l := by
  intro l
  induction l with
  | nil => intro i h; simp at h
  | cons a l ih =>
    intro i h
    match i with
    | 0 => simp [List.getD]
    | i + 1 =>
      simp only [List.set, List.getD_cons_succ]
      rw [ih i (by simpa using h)]

theorem list_getD_set_self {α : Type} (d : α) :
    ∀ (l : List α) (i : Nat) (a : α), i < l.length → (l.set i a).getD i d = a := by
  intro l
  induction l with
  | nil => intro i a h; simp at h
  | cons b l ih =>
    intro i a h
    match i with
    | 0 => simp [List.getD]
    | i + 1 => simpa [List.set, List.getD_cons_succ] using ih i a (by simpa using h)

theorem list_getD_set_ne {α : Type} (d : α) :
    ∀ (l : List α) (i j : Nat) (a : α), i ≠ j → (l.set i a).getD j d = l.getD j d := by
  intro l
  induction l with
  | nil => intro i j a _; simp
  | cons b l ih =>
    intro i j a hij
    match i, j with
    | 0, 0 => exact absurd rfl hij
    | 0, j + 1 => simp [List.set, List.getD_cons_succ]
    | i + 1, 0 => simp [List.set, List.getD]
    | i + 1, j + 1 =>
      simpa [List.set, List.getD_cons_succ] using ih i j a (by omega)

/-- Running the redistribution loop through one line's characters followed by
its `'\n'` separator appends that line's tag block to entry `li` and moves on
to entry `li + 1`. -/
theorem applyTags_one_line :
    ∀ (l : List Char) (ts1 : List HighlightType) (tc : List Char)
      (ts2 : List HighlightType) (li : Nat) (acc : List (List HighlightType)),
      '\n' ∉ l → ts1.length = l.length → li < acc.length →
      applyTags (l ++ tc) (ts1 ++ ts2) li acc =
        applyTags tc ts2 li (acc.set li (acc.getD li [] ++ ts1)) := by
  intro l
  induction l with
  | nil =>
    intro ts1 tc ts2 li acc _ hlen hli
    have : ts1 = [] := List.length_eq_zero.mp (by simpa using hlen)
    subst this
    simp only [List.nil_append, List.append_nil]
    rw [list_set_getD _ _ _ hli]
  | cons c l ih =>
    intro ts1 tc ts2 li acc hnl hlen hli
    match ts1 with
    | [] => simp at hlen
    | t :: ts1' =>
      have hc : ¬ c = '\n' := fun h => hnl (h ▸ List.mem_cons_self c l)
      rw [List.cons_append, List.cons_append, applyTags]
      simp only [if_neg hc, if_pos hli]
      rw [ih ts1' tc ts2 li _ (fun h => hnl (List.mem_cons_of_mem c h))
        (by simpa using hlen) (by simpa using hli)]
      rw [List.set_set, list_getD_set_self _ _ _ _ hli, List.append_assoc]
      rfl

/-- Full behaviour of the redistribution loop over a list of newline-free
lines: it succeeds and fills entry `li + j` with exactly as many tags as line
`j` has characters. -/
theorem applyTags_flat :
    ∀ (ls : List (List Char)) (ts : List HighlightType) (li : Nat)
      (acc : List (List HighlightType)),
      (∀ l ∈ ls, '\n' ∉ l) →
      ts.length = ((ls.map (fun l => l ++ ['\n'])).flatten).length →
      li + ls.length = acc.length →
      (∀ j, li ≤ j → acc.getD j [] = []) →
      ∃ res, applyTags ((ls.map (fun l => l ++ ['\n'])).flatten) ts li acc = some res ∧
        res.length = acc.length ∧
        (∀ j, j < li → res.getD j [] = acc.getD j []) ∧
        (∀ j, j < ls.length → (res.getD (li + j) []).length = (ls.getD j []).length) := by
  intro ls
  induction ls with
  | nil =>
    intro ts li acc _ _ _ _
    refine ⟨acc, by simp [applyTags], rfl, fun j _ => rfl, fun j hj => by simp at hj⟩
  | cons l ls ih =>
    intro ts li acc hnl hts hlen hgetD
    have hchars_len : (((l :: ls).map (fun l => l ++ ['\n'])).flatten).length =
        l.length + 1 + ((ls.map (fun l => l ++ ['\n'])).flatten).length := by
      simp [List.flatten_cons]
      omega
    rw [hchars_len] at hts
    have hlenl : l.length ≤ ts.length := by omega
    have hdrop : (ts.drop l.length).length =
        1 + ((ls.map (fun l => l ++ ['\n'])).flatten).length := by
      simp only [List.length_drop]
      omega
    obtain ⟨t, ts2, hsplit⟩ : ∃ t ts2, ts.drop l.length = t :: ts2 := by
      match h : ts.drop l.length with
      | [] => rw [h] at hdrop; simp only [List.length_nil] at hdrop; omega
      | t :: ts2 => exact ⟨t, ts2, rfl⟩
    have hli : li < acc.length := by simp only [List.length_cons] at hlen; omega
    have hchars : ((l :: ls).map (fun l => l ++ ['\n'])).flatten =
        l ++ ('\n' :: (ls.map (fun l => l ++ ['\n'])).flatten) := by
      simp [List.flatten_cons]
    have hts' : ts = ts.take l.length ++ (t :: ts2) := by
      rw [← hsplit, List.take_append_drop]
    rw [hchars, hts',
      applyTags_one_line l (ts.take l.length) _ (t :: ts2) li acc (hnl l (by simp))
        (by simp [List.length_take]; omega) hli]
    rw [hgetD li le_rfl, List.nil_append]
    have step : applyTags ('\n' :: (ls.map (fun l => l ++ ['\n'])).flatten) (t :: ts2) li
        (acc.set li (ts.take l.length)) =
        applyTags ((ls.map (fun l => l ++ ['\n'])).flatten) ts2 (li + 1)
          (acc.set li (ts.take l.length)) := by
      simp [applyTags]
    rw [step]
    have hts2 : ts2.length = ((ls.map (fun l => l ++ ['\n'])).flatten).length := by
      rw [hsplit] at hdrop
      simp only [List.length_cons] at hdrop
      omega
    obtain ⟨res, heq, hreslen, hbelow, hcount⟩ :=
      ih ts2 (li + 1) (acc.set li (ts.take l.length))
        (fun x hx => hnl x (List.mem_cons_of_mem l hx)) hts2
        (by simp only [List.length_set, List.length_cons] at hlen ⊢; omega)
        (fun j hj => by
          rw [list_getD_set_ne _ _ _ _ _ (by omega)]
          exact hgetD j (by omega))
    refine ⟨res, heq, by simpa using hreslen, ?_, ?_⟩
    · intro j hj
      rw [hbelow j (by omega), list_getD_set_ne _ _ _ _ _ (by omega)]
    · intro j hj
      match j with
      | 0 =>
        rw [Nat.add_zero, hbelow li (by omega), list_getD_set_self _ _ _ _ hli]
        simp only [List.getD_cons_zero, List.length_take]
        omega
      | j + 1 =>
        have := hcount j (by simpa using hj)
        rw [show li + (j + 1) = li + 1 + j by omega]
        simpa using this

/-- No line of the buffer contains a newline character.  This holds for every
state the editor can construct (`lines()` never yields a segment with `'\n'`,
and the editing surface feeds `Enter` to `new_line`, not `insert_char`). -/
def NoNL (t : Text) : Prop := ∀ l ∈ t.lines, '\n' ∉ l.content

/-- Per-line tag/content length agreement, the invariant of claim C4. -/
def TagInv (t : Text) : Prop := ∀ l ∈ t.lines, l.highlight_types.length = l.content.length

theorem zipWith_mk_content :
    ∀ (ls : List Line) (ts : List (List HighlightType)), ls.length ≤ ts.length →
      (List.zipWith (fun l tags => Line.mk l.content tags) ls ts).map Line.content =
        ls.map Line.content := by
  intro ls
  induction ls with
  | nil => intro ts _; simp
  | cons l ls ih =>
    intro ts h
    match ts with
    | [] => simp at h
    | t :: ts => simp [ih ts (by simpa using h)]

theorem zipWith_mk_tag_lengths :
    ∀ (ls : List Line) (ts : List (List HighlightType)),
      ls.length = ts.length →
      (∀ j, j < ls.length → (ts.getD j []).length = ((ls.getD j Line.blank).content).length) →
      ∀ l' ∈ List.zipWith (fun l tags => Line.mk l.content tags) ls ts,
        l'.highlight_types.length = l'.content.length := by
  intro ls
  induction ls with
  | nil => intro ts _ _ l' h; simp at h
  | cons l ls ih =>
    intro ts hlen hj l' hmem
    match ts with
    | [] => simp at hlen
    | t :: ts =>
      simp only [List.zipWith_cons_cons, List.mem_cons] at hmem
      rcases hmem with h | h
      · subst h
        have := hj 0 (by simp)
        simpa using this
      · exact ih ts (by simpa using hlen)
          (fun j hjj => by simpa using hj (j + 1) (by simpa using hjj)) l' h

/-- On a newline-free buffer, retokenization succeeds, leaves every line's
content unchanged, and leaves every line with exactly one tag per character. -/
theorem update_syntax_lines_some (lines : List Line)
    (h : ∀ l ∈ lines, '\n' ∉ l.content) :
    ∃ lines', update_syntax_lines lines = some lines' ∧
      lines'.map Line.content = lines.map Line.content ∧
      (∀ l' ∈ lines', l'.highlight_types.length = l'.content.length) := by
  have hmm : lines.map (fun l => l.content ++ ['\n']) =
      (lines.map Line.content).map (fun c => c ++ ['\n']) := by
    simp [List.map_map]
  obtain ⟨res, heq, hreslen, _, hcount⟩ :=
    applyTags_flat (lines.map Line.content)
      (scanChars ((lines.map (fun l => l.content ++ ['\n'])).flatten)) 0
      (lines.map (fun _ => []))
      (by intro c hc
          obtain ⟨l, hl, rfl⟩ := List.mem_map.mp hc
          exact h l hl)
      (by rw [scanChars_length, hmm])
      (by simp)
      (by intro j _
          rcases Nat.lt_or_ge j lines.length with hj | hj
          · rw [List.getD_eq_getElem _ _ (by simpa using hj)]
            simp
          · exact List.getD_eq_default _ _ (by simpa using hj))
  rw [hmm] at heq
  refine ⟨List.zipWith (fun l tags => Line.mk l.content tags) lines res,
    ?_, ?_, ?_⟩
  · unfold update_syntax_lines
    rw [hmm, heq]
  · exact zipWith_mk_content lines res (by simp at hreslen; omega)
  · refine zipWith_mk_tag_lengths lines res (by simpa using hreslen.symm) ?_
    intro j hj
    have := hcount j (by simpa using hj)
    simp only [Nat.zero_add] at this
    rw [this, List.getD_eq_getElem _ _ (by simpa using hj)]
    rcases Nat.lt_or_ge j lines.length with hjj | hjj
    · rw [List.getD_eq_getElem _ _ (by simpa using hjj)]
      simp
    · exact absurd hj (by omega)

/-- `Text`-level packaging of `update_syntax_lines_some`. -/
theorem update_syntax_opt_some (t : Text) (h : NoNL t) :
    ∃ t', Text.update_syntax_opt t = some t' ∧
      t'.lines.map Line.content = t.lines.map Line.content ∧ TagInv t' ∧ NoNL t' := by
  obtain ⟨lines', heq, hcontent, htags⟩ := update_syntax_lines_some t.lines h
  refine ⟨⟨lines'⟩, ?_, hcontent, htags, ?_⟩
  · unfold Text.update_syntax_opt
    rw [heq]
  · intro l' hl'
    have : l'.content ∈ lines'.map Line.content := List.mem_map_of_mem _ hl'
    rw [hcontent] at this
    obtain ⟨l, hl, hc⟩ := List.mem_map.mp this
    rw [← hc]
    exact h l hl

/-- Cursor state, mirroring `struct Cursor`.  All fields are `u16` in the
source; they are modelled as `Nat` (values stay far below `2 ^ 16` in every
reachable state), except that `change_offset` — the one place the source's
arithmetic can wrap — is modelled with explicit 16-bit wrap-around.
`size` is `(width, height)`. -/
structure Cursor where
  x : Nat
  y : Nat
  render_x : Nat
  x_offset : Nat
  y_offset : Nat
  size : Nat × Nat
deriving DecidableEq, Repr

/-- Mirrors `Cursor::new`. -/
def Cursor.new (size : Nat × Nat) : Cursor :=
  ⟨0, 0, 0, 0, 0, size⟩

/-- The four navigation arms of the `KeyCode` match in `Cursor::move_cursor`
(every other key is a no-op there). -/
inductive Direction where
  | up
  | down
  | left
  | right
deriving DecidableEq, Repr

/-- Mirrors `Cursor::move_cursor`.  In the source `text.len() as u16 - 1`
underflows only when the buffer has no lines, which `Text`'s ≥ 1 line
invariant rules out; with that precondition `Nat` subtraction agrees with the
`u16` arithmetic. -/
def Cursor.move_cursor (c : Cursor) (text : Text) (direction : Direction) : Cursor :=
  match direction with
  | .up =>
    if 0 < c.y then
      { c with y := c.y - 1, render_x := min c.x (Text.line_len text (c.y - 1)) }
    else c
  | .right =>
    if c.render_x < Text.line_len text c.y then
      { c with x := c.render_x + 1, render_x := c.render_x + 1 }
    else if c.y < Text.len text - 1 then
      { c with x := 0, y := c.y + 1, render_x := 0 }
    else { c with x := c.render_x }
  | .down =>
    if c.y < Text.len text - 1 then
      { c with y := c.y + 1, render_x := min c.x (Text.line_len text (c.y + 1)) }
    else c
  | .left =>
    if 0 < c.render_x then
      { c with x := c.render_x - 1, render_x := c.render_x - 1 }
    else if 0 < c.y then
      { c with x := Text.line_len text (c.y - 1), y := c.y - 1,
               render_x := Text.line_len text (c.y - 1) }
    else { c with x := c.render_x }

/-- Mirrors `Cursor::get_position` (`(render_x, y)`). -/
def Cursor.get_position (c : Cursor) : Nat × Nat := (c.render_x, c.y)

/-- Mirrors `Cursor::set_position` (sets both `x` and `render_x`). -/
def Cursor.set_position (c : Cursor) (x y : Nat) : Cursor :=
  { c with x := x, render_x := x, y := y }

/-- Mirrors `Cursor::get_offset`. -/
def Cursor.get_offset (c : Cursor) : Nat × Nat := (c.x_offset, c.y_offset)

/-- Mirrors `Cursor::get_line_index`. -/
def Cursor.get_line_index (c : Cursor) : Nat := c.y

/-- Wrapping 16-bit addition. -/
def wadd (a b : Nat) : Nat := (a + b) % 65536

/-- Wrapping 16-bit subtraction (for arguments already reduced mod `2 ^ 16`). -/
def wsub (a b : Nat) : Nat := (a % 65536 + 65536 - b % 65536) % 65536

/-- First `if` of `change_offset` (scroll up): `y < y_offset` pulls
`y_offset` down to `y`. -/
def co_up (c : Cursor) : Cursor :=
  if c.y < c.y_offset then
    { c with y_offset := wsub c.y_offset (wsub c.y_offset c.y) }
  else c

/-- Second `if` of `change_offset` (scroll right): `render_x` past
`size.0 + x_offset - 1` pushes `x_offset` right by the overshoot. -/
def co_right (c : Cursor) : Cursor :=
  if wsub (wadd c.size.1 c.x_offset) 1 < c.render_x then
    { c with x_offset := wadd c.x_offset (wsub c.render_x (wsub (wadd c.size.1 c.x_offset) 1)) }
  else c

/-- Third `if` of `change_offset` (scroll down): `y` past
`size.1 + y_offset - 1` pushes `y_offset` down by the overshoot. -/
def co_down (c : Cursor) : Cursor :=
  if wsub (wadd c.size.2 c.y_offset) 1 < c.y then
    { c with y_offset := wadd c.y_offset (wsub c.y (wsub (wadd c.size.2 c.y_offset) 1)) }
  else c

/-- Fourth `if` of `change_offset` (scroll left): `render_x < x_offset` pulls
`x_offset` back to `render_x`. -/
def co_left (c : Cursor) : Cursor :=
  if c.render_x < c.x_offset then
    { c with x_offset := wsub c.x_offset (wsub c.x_offset c.render_x) }
  else c

/-- Mirrors `Cursor::change_offset` with explicit `u16` wrap-around on every
addition and subtraction.  The four `if`s run in the source's order:
up, right, down, left. -/
def Cursor.change_offset (c : Cursor) : Cursor :=
  co_left (co_down (co_right (co_up c)))

/-- The `u16` expression `size + offset - 1` inside `change_offset` underflows
exactly when the 16-bit value of `size + offset` is zero.  The `y` side uses
the `y_offset` current at the third `if`, i.e. after the up-adjustment. -/
def change_offset_underflow (c : Cursor) : Prop :=
  wadd c.size.1 c.x_offset = 0 ∨
  wadd c.size.2 (if c.y < c.y_offset then wsub c.y_offset (wsub c.y_offset c.y) else c.y_offset) = 0

/-- Mirrors `Text::insert_char`: insert at line `cursor.y`, byte offset
`cursor.render_x`; a tab becomes four spaces and advances the cursor by 4, any
other character advances it by 1; ends with a full retokenization.  `none`
models the panics of `self.lines[..]` / `insert_str` on out-of-range
positions. -/
def Text.insert_char (t : Text) (ch : Char) (cur : Cursor) : Option (Text × Cursor) :=
  match t.lines.get? (Cursor.get_line_index cur) with
  | none => none
  | some line =>
    match (if ch = '\t' then Line.insert line (Cursor.get_position cur).1 "    ".toList
           else Line.insert line (Cursor.get_position cur).1 [ch]) with
    | none => none
    | some line' =>
      match Text.update_syntax_opt ⟨t.lines.set (Cursor.get_line_index cur) line'⟩ with
      | none => none
      | some t' =>
        some (t', Cursor.set_position cur
          ((Cursor.get_position cur).1 + (if ch = '\t' then 4 else 1))
          (Cursor.get_position cur).2)

/-- Mirrors `Text::new_line`: split the current line at `render_x`, insert the
tail as a new line right after, retokenize, move the cursor to column 0 of the
next row. -/
def Text.new_line (t : Text) (cur : Cursor) : Option (Text × Cursor) :=
  match t.lines.get? (Cursor.get_line_index cur) with
  | none => none
  | some line =>
    match Line.split_at line (Cursor.get_position cur).1 with
    | none => none
    | some (kept, new_line) =>
      match Text.update_syntax_opt
          ⟨(t.lines.set (Cursor.get_line_index cur) kept).insertIdx
            (Cursor.get_line_index cur + 1) new_line⟩ with
      | none => none
      | some t' =>
        some (t', Cursor.set_position cur 0 ((Cursor.get_position cur).2 + 1))

/-- Mirrors `Text::delete_char`: the three cases of the source, each followed
by a full retokenization. -/
def Text.delete_char (t : Text) (cur : Cursor) : Option (Text × Cursor) :=
  if 0 < (Cursor.get_position cur).1 then
    match t.lines.get? (Cursor.get_line_index cur) with
    | none => none
    | some line =>
      match Line.delete_char line ((Cursor.get_position cur).1 - 1) with
      | none => none
      | some line' =>
        match Text.update_syntax_opt ⟨t.lines.set (Cursor.get_line_index cur) line'⟩ with
        | none => none
        | some t' =>
          some (t', Cursor.set_position cur ((Cursor.get_position cur).1 - 1)
            (Cursor.get_position cur).2)
  else if 0 < (Cursor.get_position cur).2 then
    match t.lines.get? (Cursor.get_line_index cur) with
    | none => none
    | some old_line =>
      match (t.lines.eraseIdx (Cursor.get_line_index cur)).get?
          (Cursor.get_line_index cur - 1) with
      | none => none
      | some prev =>
        match Text.update_syntax_opt
            ⟨(t.lines.eraseIdx (Cursor.get_line_index cur)).set
              (Cursor.get_line_index cur - 1) (Line.append prev old_line)⟩ with
        | none => none
        | some t' =>
          some (t', Cursor.set_position cur (Line.len prev)
            ((Cursor.get_position cur).2 - 1))
  else
    match Text.update_syntax_opt t with
    | none => none
    | some t' => some (t', cur)

/-- One buffer-editing operation, as fed by the editing surface: a typed
character, Enter, or Backspace. -/
inductive EditOp where
  | ins (c : Char)
  | enter
  | backspace
deriving DecidableEq, Repr

/-- Dispatch one operation, mirroring the key-event loop's calls into `Text`. -/
def applyOp (s : Text × Cursor) : EditOp → Option (Text × Cursor)
  | .ins c => Text.insert_char s.1 c s.2
  | .enter => Text.new_line s.1 s.2
  | .backspace => Text.delete_char s.1 s.2

/-- Run a whole sequence of operations; `none` as soon as one panics. -/
def applyOps (s : Text × Cursor) : List EditOp → Option (Text × Cursor)
  | [] => some s
  | op :: rest =>
    match applyOp s op with
    | none => none
    | some s' => applyOps s' rest

theorem findSub_le :
    ∀ (hay pat : List Char) (r : Nat), findSub hay pat = some r → r + pat.length ≤ hay.length := by
  intro hay
  induction hay with
  | nil =>
    intro pat r h
    simp only [findSub] at h
    split_ifs at h with hp
    · have : pat = [] := by
        cases pat with
        | nil => rfl
        | cons a l => simp [List.isPrefixOf] at hp
      subst this
      simp only [Option.some_inj] at h
      simp [← h]
  | cons a t ih =>
    intro pat r h
    simp only [findSub] at h
    split_ifs at h with hp
    · simp only [Option.some_inj] at h
      have : pat <+: a :: t := List.isPrefixOf_iff_prefix.mp hp
      have := this.length_le
      simp only [← h]
      simpa using this
    · simp only [Option.map_eq_some'] at h
      obtain ⟨r', hr', rfl⟩ := h
      have := ih pat r' hr'
      simp only [List.length_cons]
      omega

/-- The inner `while` loop of `SearchData::find_results` for one line, with
explicit fuel: each found match advances `start` past its end (the phrase is
non-empty), so with fuel `≥ content.length + 1 - start` the fuel never runs
out before `find` fails, and this is the loop's exact behaviour. -/
def findMatchesAux : Nat → List Char → Char → List Char → Nat → List Nat
  | 0, _, _, _, _ => []
  | fuel + 1, content, p, ps, start =>
    match findSub (content.drop start) (p :: ps) with
    | none => []
    | some r =>
      (start + r) :: findMatchesAux fuel content p ps (start + r + (p :: ps).length)

/-- All matches of the non-empty phrase `p :: ps` in one line, left to right,
each search restarting immediately past the previous match's end. -/
def findMatches (content : List Char) (p : Char) (ps : List Char) (start : Nat) : List Nat :=
  findMatchesAux (content.length + 1 - start) content p ps start

/-- Search session state, mirroring `struct SearchData`. -/
structure SearchData where
  results : List (Nat × Nat)
  index : Nat
deriving DecidableEq, Repr

/-- Mirrors `SearchData::new`. -/
def SearchData.new : SearchData := ⟨[], 0⟩

/-- The tagging loop body of `find_results`: set `phrase.len()` tags starting
at byte `x` of line `y` to SearchResult; an out-of-range write panics. -/
def mark_result (lines : List Line) (x y n : Nat) : Option (List Line) :=
  match lines.get? y with
  | none => none
  | some l =>
    if x + n ≤ l.highlight_types.length then
      some (lines.set y ⟨l.content,
        l.highlight_types.take x ++ List.replicate n HighlightType.SearchResult ++
          l.highlight_types.drop (x + n)⟩)
    else none

/-- Fold `mark_result` over all matches (`for (x,y) in &self.results`). -/
def mark_all (lines : List Line) : List (Nat × Nat) → Nat → Option (List Line)
  | [], _ => some lines
  | (x, y) :: rest, n =>
    match mark_result lines x y n with
    | none => none
    | some lines' => mark_all lines' rest n

/-- The outer row loop of `find_results`: for every row of the buffer, all
matches of the non-empty phrase `p :: ps` on that row as `(col, row)` pairs,
rows in order. -/
def search_results_list (t : Text) (p : Char) (ps : List Char) : List (Nat × Nat) :=
  ((List.range (Text.len t)).map (fun row =>
    (findMatches ((t.lines.getD row Line.blank).content) p ps 0).map
      (fun col => (col, row)))).flatten

/-- Mirrors `SearchData::find_results`: retokenize, clear the results, return
`None` for an empty phrase; otherwise scan every line left to right with
non-overlapping restarts, tag every match SearchResult, and return the first
match if any.  `self.index` is never touched.  The returned triple is the new
search state, the mutated buffer, and the returned match. -/
def SearchData.find_results (sd : SearchData) (phrase : List Char) (t : Text) :
    Option (SearchData × Text × Option (Nat × Nat)) :=
  match Text.update_syntax_opt t with
  | none => none
  | some t' =>
    match phrase with
    | [] => some ({ results := [], index := sd.index }, t', none)
    | p :: ps =>
      match mark_all t'.lines (search_results_list t' p ps) (ps.length + 1) with
      | none => none
      | some lines' =>
        some ({ results := search_results_list t' p ps, index := sd.index },
          ⟨lines'⟩, (search_results_list t' p ps).head?)

/-- Mirrors `SearchData::get_next`: cyclic advance, `None` without results. -/
def SearchData.get_next (sd : SearchData) : SearchData × Option (Nat × Nat) :=
  if sd.results.length = 0 then (sd, none)
  else
    ({ sd with index := (sd.index + 1) % sd.results.length },
     sd.results.get? ((sd.index + 1) % sd.results.length))

/-- Mirrors `SearchData::get_previous`: cyclic retreat, `None` without
results. -/
def SearchData.get_previous (sd : SearchData) : SearchData × Option (Nat × Nat) :=
  if sd.results.length = 0 then (sd, none)
  else
    ({ sd with index := (sd.index + sd.results.length - 1) % sd.results.length },
     sd.results.get? ((sd.index + sd.results.length - 1) % sd.results.length))

/-- One segment mapper of Rust's `str::lines`: strip one trailing `'\n'`, and
only if that succeeded also strip one trailing `'\r'`. -/
def stripEOL (l : List Char) : List Char :=
  if l.getLast? = some '\n' then
    if l.dropLast.getLast? = some '\r' then l.dropLast.dropLast else l.dropLast
  else l

/-- Rust's `str::split_inclusive('\n')` on a char list: split after every
`'\n'`, keeping the separator; no empty trailing segment; the empty string
yields no segments. -/
def splitInc : List Char → List (List Char)
  | [] => []
  | c :: rest =>
    if c = '\n' then ['\n'] :: splitInc rest
    else
      match splitInc rest with
      | [] => [[c]]
      | seg :: segs => (c :: seg) :: segs

/-- Rust's `str::lines()` (as implemented in std: `split_inclusive('\n')`
followed by the end-of-line strip). -/
def rustLines (s : List Char) : List (List Char) := (splitInc s).map stripEOL

/-- Mirrors `Text::load`.  The argument models `std::io::Result<String>`
(`none` = read error); on success split into lines, an empty result still
yields one blank line; on failure reset to one blank line; then retokenize. -/
def Text.load (content : Option (List Char)) : Option Text :=
  match content with
  | some s =>
    Text.update_syntax_opt
      ⟨if (rustLines s).isEmpty then [Line.blank] else (rustLines s).map Line.new⟩
  | none => Text.update_syntax_opt ⟨[Line.blank]⟩

/-- Mirrors `Text::save`: the written bytes are the lines' contents joined
with a single `'\n'` separator and no trailing terminator (the file is
truncated to exactly this length before the write). -/
def Text.save (t : Text) : List Char := List.intercalate ['\n'] (t.lines.map Line.content)

/-- A whole sequence of `move_cursor` navigation calls on a fixed buffer. -/
def moveSeq (c : Cursor) (t : Text) (moves : List Direction) : Cursor :=
  moves.foldl (fun c d => Cursor.move_cursor c t d) c

/-- There is no unescaped closing quote `q` anywhere in the remaining
characters (the escape state threads exactly as in `string_len`). -/
def no_close (q : Char) : List Char → Bool → Bool
  | [], _ => true
  | c :: rest, esc =>
    if esc = false ∧ c = q then false else no_close q rest (decide (c = '\\' ∧ esc = false))

theorem no_close_string_len_aux (q : Char) :
    ∀ (cs : List Char) (esc : Bool), no_close q cs esc = true →
      string_len_aux q cs esc = cs.length := by
  intro cs
  induction cs with
  | nil => intro esc _; simp [string_len_aux]
  | cons c rest ih =>
    intro esc h
    rw [no_close] at h
    split_ifs at h with hq
    · simp only [string_len_aux, if_neg hq, List.length_cons]
      rw [ih _ h]
      omega

/-- A single `move_cursor` call preserves the bounds `y < lineCount` and
`render_x ≤ line_len y`. -/
theorem move_cursor_inv (t : Text) (c : Cursor) (d : Direction)
    (hy : c.y < Text.len t) (hx : c.render_x ≤ Text.line_len t c.y) :
    (Cursor.move_cursor c t d).y < Text.len t ∧
    (Cursor.move_cursor c t d).render_x ≤ Text.line_len t ((Cursor.move_cursor c t d).y) := by
  cases d with
  | up =>
    simp only [Cursor.move_cursor]
    split_ifs with h <;> (try dsimp only)
    · exact ⟨by omega, min_le_right _ _⟩
    · exact ⟨hy, hx⟩
  | right =>
    simp only [Cursor.move_cursor]
    split_ifs with h1 h2 <;> (try dsimp only)
    · exact ⟨hy, by omega⟩
    · exact ⟨by omega, Nat.zero_le _⟩
    · exact ⟨hy, hx⟩
  | down =>
    simp only [Cursor.move_cursor]
    split_ifs with h <;> (try dsimp only)
    · exact ⟨by omega, min_le_right _ _⟩
    · exact ⟨hy, hx⟩
  | left =>
    simp only [Cursor.move_cursor]
    split_ifs with h1 h2 <;> (try dsimp only)
    · exact ⟨hy, by omega⟩
    · exact ⟨by omega, le_refl _⟩
    · exact ⟨hy, hx⟩

theorem moveSeq_inv (t : Text) (moves : List Direction) :
    ∀ c : Cursor, c.y < Text.len t → c.render_x ≤ Text.line_len t c.y →
      (moveSeq c t moves).y < Text.len t ∧
      (moveSeq c t moves).render_x ≤ Text.line_len t ((moveSeq c t moves).y) := by
  induction moves with
  | nil => intro c hy hx; exact ⟨hy, hx⟩
  | cons d rest ih =>
    intro c hy hx
    have step := move_cursor_inv t c d hy hx
    simpa [moveSeq, List.foldl_cons] using ih (Cursor.move_cursor c t d) step.1 step.2

/-- C1 (amended).  For any sequence of `move_cursor` calls (Up, Down, Left,
Right) starting from the initial cursor on a buffer with at least one line,
the cursor satisfies `y ∈ [0, lineCount-1]` and `render_x ∈ [0, line_len(y)]`
after every call.  (The claim's bound on the stored field `x` is false — `x`
keeps the horizontal intent across vertical moves and can exceed the new
line's length, see the counterexample — the bound holds for `render_x`, the
column actually used.) -/
theorem claim_C1 (t : Text) (size : Nat × Nat) (moves : List Direction)
    (ht : t.lines ≠ []) :
    (moveSeq (Cursor.new size) t moves).y < Text.len t ∧
    (moveSeq (Cursor.new size) t moves).render_x ≤
      Text.line_len t ((moveSeq (Cursor.new size) t moves).y) := by
  apply moveSeq_inv
  · exact List.length_pos.mpr ht
  · exact Nat.zero_le _

/-- C1 counterexample.  On the two-line buffer `["abcd", ""]`, four Rights
followed by Down leave the cursor with `x = 4` on line 1 whose length is 0,
so `x ∈ [0, line_len(y)]` fails as stated (while `render_x` is clamped to 0). -/
theorem claim_C1_cex :
    (moveSeq (Cursor.new (80, 24)) ⟨[Line.new "abcd".toList, Line.new []]⟩
      [Direction.right, Direction.right, Direction.right, Direction.right,
       Direction.down]).x = 4 ∧
    Text.line_len ⟨[Line.new "abcd".toList, Line.new []]⟩
      ((moveSeq (Cursor.new (80, 24)) ⟨[Line.new "abcd".toList, Line.new []]⟩
        [Direction.right, Direction.right, Direction.right, Direction.right,
         Direction.down]).y) = 0 := by
  constructor <;> rfl

/-- C1 witness: the amended bound instantiated on the buffer `["ab"]` after a
single Right. -/
theorem claim_C1_witness :
    (⟨[Line.new "ab".toList]⟩ : Text).lines ≠ [] ∧
    ((moveSeq (Cursor.new (80, 24)) ⟨[Line.new "ab".toList]⟩ [Direction.right]).y <
      Text.len ⟨[Line.new "ab".toList]⟩ ∧
     (moveSeq (Cursor.new (80, 24)) ⟨[Line.new "ab".toList]⟩ [Direction.right]).render_x ≤
      Text.line_len ⟨[Line.new "ab".toList]⟩
        ((moveSeq (Cursor.new (80, 24)) ⟨[Line.new "ab".toList]⟩ [Direction.right]).y)) :=
  ⟨by decide, claim_C1 ⟨[Line.new "ab".toList]⟩ (80, 24) [Direction.right] (by decide)⟩

/-- C3 (amended).  `Text::find_phrase` indexes `self.lines[index]` with no
bounds check, so it is total only on in-range input: for `index < lineCount`
and `start ≤ line_len(index)` it always returns a result (never panics).  An
out-of-range line index panics, see the counterexample. -/
theorem claim_C3 (t : Text) (phrase : List Char) (index start : Nat)
    (hi : index < Text.len t) (hs : start ≤ Text.line_len t index) :
    ∃ r, Text.find_phrase t phrase index start = some r := by
  have hlen : index < t.lines.length := by simpa [Text.len] using hi
  unfold Text.find_phrase Line.find_phrase
  rw [List.get?_eq_get hlen]
  dsimp only
  rw [if_pos]
  · exact ⟨_, rfl⟩
  · unfold Text.line_len at hs
    rw [if_pos hi, List.getD_eq_getElem _ _ hlen] at hs
    simpa [List.get_eq_getElem] using hs

/-- C3 counterexample.  On the fresh one-line buffer, `find_phrase` at line
index 1 (out of range: `lineCount = 1`) hits the unchecked `self.lines[1]`
indexing and panics (modelled as `none`), refuting totality over out-of-range
indices. -/
theorem claim_C3_cex : Text.find_phrase Text.new ['a'] 1 0 = none := by rfl

/-- C3 witness: the amended totality instantiated at line 0, offset 0 of the
fresh buffer. -/
theorem claim_C3_witness :
    0 < Text.len Text.new ∧ 0 ≤ Text.line_len Text.new 0 ∧
    ∃ r, Text.find_phrase Text.new ['a'] 0 0 = some r :=
  ⟨by decide, by decide, claim_C3 Text.new ['a'] 0 0 (by decide) (by decide)⟩

/-- C5.  For every cursor state with a non-degenerate viewport
(`size.width ≥ 1`, `size.height ≥ 1`) whose fields are in the `u16` range
with no additive overflow (`size + offset < 2 ^ 16`, which holds in every
reachable state), `change_offset` leaves the cursor position itself unchanged
and afterwards the viewport contains the cursor:
`x_offset ≤ render_x < x_offset + size.width` and
`y_offset ≤ y < y_offset + size.height`; moreover each offset moves by exactly
the amount the cursor exceeded the corresponding bound (the closed forms in
the last two conjuncts). -/
theorem claim_C5 (c : Cursor)
    (hw : 1 ≤ c.size.1) (hh : 1 ≤ c.size.2)
    (hrx : c.render_x < 65536) (hy : c.y < 65536)
    (hxo : c.size.1 + c.x_offset < 65536) (hyo : c.size.2 + c.y_offset < 65536) :
    (Cursor.change_offset c).render_x = c.render_x ∧
    (Cursor.change_offset c).y = c.y ∧
    (Cursor.change_offset c).x_offset ≤ c.render_x ∧
    c.render_x < (Cursor.change_offset c).x_offset + c.size.1 ∧
    (Cursor.change_offset c).y_offset ≤ c.y ∧
    c.y < (Cursor.change_offset c).y_offset + c.size.2 ∧
    (Cursor.change_offset c).x_offset =
      (if c.x_offset + c.size.1 ≤ c.render_x then c.render_x + 1 - c.size.1
       else if c.render_x < c.x_offset then c.render_x else c.x_offset) ∧
    (Cursor.change_offset c).y_offset =
      (if c.y < c.y_offset then c.y
       else if c.y_offset + c.size.2 ≤ c.y then c.y + 1 - c.size.2 else c.y_offset) := by
  obtain ⟨x, y, rx, xo, yo, w, h⟩ := c
  simp only [Cursor.change_offset, co_up, co_right, co_down, co_left, wadd, wsub] at *
  split_ifs <;> simp_all <;> omega

/-- C5 witness: a cursor at `render_x = 5` in a 2×2 viewport at offset (0,0);
`change_offset` scrolls right to `x_offset = 4`. -/
theorem claim_C5_witness :
    (Cursor.change_offset ⟨5, 0, 5, 0, 0, (2, 2)⟩).render_x =
      (⟨5, 0, 5, 0, 0, (2, 2)⟩ : Cursor).render_x ∧
    (Cursor.change_offset ⟨5, 0, 5, 0, 0, (2, 2)⟩).y = (⟨5, 0, 5, 0, 0, (2, 2)⟩ : Cursor).y ∧
    (Cursor.change_offset ⟨5, 0, 5, 0, 0, (2, 2)⟩).x_offset ≤
      (⟨5, 0, 5, 0, 0, (2, 2)⟩ : Cursor).render_x ∧
    (⟨5, 0, 5, 0, 0, (2, 2)⟩ : Cursor).render_x <
      (Cursor.change_offset ⟨5, 0, 5, 0, 0, (2, 2)⟩).x_offset +
        (⟨5, 0, 5, 0, 0, (2, 2)⟩ : Cursor).size.1 ∧
    (Cursor.change_offset ⟨5, 0, 5, 0, 0, (2, 2)⟩).y_offset ≤
      (⟨5, 0, 5, 0, 0, (2, 2)⟩ : Cursor).y ∧
    (⟨5, 0, 5, 0, 0, (2, 2)⟩ : Cursor).y <
      (Cursor.change_offset ⟨5, 0, 5, 0, 0, (2, 2)⟩).y_offset +
        (⟨5, 0, 5, 0, 0, (2, 2)⟩ : Cursor).size.2 ∧
    (Cursor.change_offset ⟨5, 0, 5, 0, 0, (2, 2)⟩).x_offset =
      (if (⟨5, 0, 5, 0, 0, (2, 2)⟩ : Cursor).x_offset +
            (⟨5, 0, 5, 0, 0, (2, 2)⟩ : Cursor).size.1 ≤
            (⟨5, 0, 5, 0, 0, (2, 2)⟩ : Cursor).render_x then
        (⟨5, 0, 5, 0, 0, (2, 2)⟩ : Cursor).render_x + 1 -
          (⟨5, 0, 5, 0, 0, (2, 2)⟩ : Cursor).size.1
       else if (⟨5, 0, 5, 0, 0, (2, 2)⟩ : Cursor).render_x <
            (⟨5, 0, 5, 0, 0, (2, 2)⟩ : Cursor).x_offset then
        (⟨5, 0, 5, 0, 0, (2, 2)⟩ : Cursor).render_x
       else (⟨5, 0, 5, 0, 0, (2, 2)⟩ : Cursor).x_offset) ∧
    (Cursor.change_offset ⟨5, 0, 5, 0, 0, (2, 2)⟩).y_offset =
      (if (⟨5, 0, 5, 0, 0, (2, 2)⟩ : Cursor).y < (⟨5, 0, 5, 0, 0, (2, 2)⟩ : Cursor).y_offset then
        (⟨5, 0, 5, 0, 0, (2, 2)⟩ : Cursor).y
       else if (⟨5, 0, 5, 0, 0, (2, 2)⟩ : Cursor).y_offset +
            (⟨5, 0, 5, 0, 0, (2, 2)⟩ : Cursor).size.2 ≤ (⟨5, 0, 5, 0, 0, (2, 2)⟩ : Cursor).y then
        (⟨5, 0, 5, 0, 0, (2, 2)⟩ : Cursor).y + 1 - (⟨5, 0, 5, 0, 0, (2, 2)⟩ : Cursor).size.2
       else (⟨5, 0, 5, 0, 0, (2, 2)⟩ : Cursor).y_offset) :=
  claim_C5 ⟨5, 0, 5, 0, 0, (2, 2)⟩ (by decide) (by decide) (by decide) (by decide)
    (by decide) (by decide)

/-- C8.  If the tokenizer reaches a single or double quote and the remaining
characters contain no unescaped matching close quote (backslash escapes the
next character), the string token extends to the end of the entire scanned
character sequence — the whole concatenated buffer, across line breaks — and
every character from the quote on is tagged `String`. -/
theorem claim_C8 (q : Char) (rest : List Char) (hq : q = '"' ∨ q = '\'')
    (h : no_close q rest false = true) :
    scanChars (q :: rest) = List.replicate (rest.length + 1) HighlightType.String := by
  have hw : word_len (q :: rest) = 0 := by
    rcases hq with rfl | rfl <;>
      (simp only [word_len, word_len_aux]; rw [if_neg (by decide)])
  have hn : number_len (q :: rest) = 0 := by
    rcases hq with rfl | rfl <;>
      (simp only [number_len, number_len_aux]; rw [if_neg (by decide)])
  have hs : string_len (q :: rest) = rest.length + 1 := by
    rw [string_len, if_pos hq, no_close_string_len_aux q rest false h]
    omega
  have hstep : tokenStep (q :: rest) = (HighlightType.String, rest.length + 1) := by
    unfold tokenStep
    rw [hw, hn, hs]
    simp
  rw [scanChars_cons, hstep]
  rw [show rest.length + 1 = (q :: rest).length by simp, List.drop_length]
  simp [scanChars, scanAux_nil]

/-- C8 witness: an unterminated double-quoted string opened before a line
break swallows the following line as well — all six characters of
`"ab\ncd` are tagged `String`. -/
theorem claim_C8_witness :
    (('"' : Char) = '"' ∨ ('"' : Char) = '\'') ∧
    no_close '"' "ab\ncd".toList false = true ∧
    scanChars ('"' :: "ab\ncd".toList) =
      List.replicate ("ab\ncd".toList.length + 1) HighlightType.String :=
  ⟨Or.inl rfl, by decide, claim_C8 '"' "ab\ncd".toList (Or.inl rfl) (by decide)⟩

/-- C10.  `change_offset` computes `size.0 + x_offset - 1` and
`size.1 + y_offset - 1` in `u16` arithmetic: when a size component is 0 and
the corresponding offset is 0 the subtraction underflows, and under the
precondition `size.width ≥ 1` and `size.height ≥ 1` (plus the `u16`
no-overflow range of the sums) the underflow is unreachable. -/
theorem claim_C10 :
    (∀ c : Cursor, (c.size.1 = 0 ∧ c.x_offset = 0) ∨ (c.size.2 = 0 ∧ c.y_offset = 0) →
      change_offset_underflow c) ∧
    (∀ c : Cursor, 1 ≤ c.size.1 → 1 ≤ c.size.2 →
      c.size.1 + c.x_offset < 65536 → c.size.2 + c.y_offset < 65536 →
      ¬ change_offset_underflow c) := by
  constructor
  · intro c hc
    rcases hc with ⟨h1, h2⟩ | ⟨h1, h2⟩
    · exact Or.inl (by simp [wadd, h1, h2])
    · refine Or.inr ?_
      rw [if_neg (by omega : ¬ c.y < c.y_offset)]
      simp [wadd, h1, h2]
  · intro c h1 h2 h3 h4 hc
    unfold change_offset_underflow wadd wsub at hc
    rcases hc with hc | hc
    · omega
    · split_ifs at hc <;> omega

theorem mem_of_last_eq : ∀ {l : List Char} {a : Char}, l.getLast? = some a → a ∈ l := by
  intro l
  induction l with
  | nil => intro a h; simp at h
  | cons c rest ih =>
    intro a h
    match rest with
    | [] =>
      simp only [List.getLast?_singleton, Option.some_inj] at h
      simp [h]
    | b :: l' =>
      rw [List.getLast?_cons_cons] at h
      exact List.mem_cons_of_mem _ (ih h)

theorem splitInc_ne_nil : ∀ {s : List Char}, s ≠ [] → splitInc s ≠ [] := by
  intro s hs
  match s with
  | c :: rest =>
    by_cases hc : c = '\n'
    · simp [splitInc, hc]
    · cases h : splitInc rest with
      | nil => simp [splitInc, hc, h]
      | cons sg sgs => simp [splitInc, hc, h]

theorem splitInc_seg_ne_nil :
    ∀ (s : List Char), ∀ seg ∈ splitInc s, seg ≠ [] := by
  intro s
  induction s with
  | nil => intro seg h; simp [splitInc] at h
  | cons c rest ih =>
    intro seg hseg
    by_cases hc : c = '\n'
    · simp only [splitInc, if_pos hc, List.mem_cons] at hseg
      rcases hseg with rfl | hseg
      · simp
      · exact ih seg hseg
    · cases h : splitInc rest with
      | nil =>
        simp only [splitInc, if_neg hc, h, List.mem_cons] at hseg
        rcases hseg with rfl | hseg
        · simp
        · simp at hseg
      | cons sg sgs =>
        simp only [splitInc, if_neg hc, h, List.mem_cons] at hseg
        rcases hseg with rfl | hseg
        · simp
        · exact ih seg (by rw [h]; exact List.mem_cons_of_mem _ hseg)

theorem splitInc_seg_subset :
    ∀ (s : List Char), ∀ seg ∈ splitInc s, ∀ a ∈ seg, a ∈ s := by
  intro s
  induction s with
  | nil => intro seg h; simp [splitInc] at h
  | cons c rest ih =>
    intro seg hseg a ha
    by_cases hc : c = '\n'
    · simp only [splitInc, if_pos hc, List.mem_cons] at hseg
      rcases hseg with rfl | hseg
      · simp only [List.mem_singleton] at ha
        simp [ha, hc]
      · exact List.mem_cons_of_mem _ (ih seg hseg a ha)
    · cases h : splitInc rest with
      | nil =>
        simp only [splitInc, if_neg hc, h, List.mem_cons] at hseg
        rcases hseg with rfl | hseg
        · simp only [List.mem_singleton] at ha
          simp [ha]
        · simp at hseg
      | cons sg sgs =>
        simp only [splitInc, if_neg hc, h, List.mem_cons] at hseg
        rcases hseg with rfl | hseg
        · rcases List.mem_cons.mp ha with rfl | ha
          · simp
          · exact List.mem_cons_of_mem _
              (ih sg (by rw [h]; exact List.mem_cons_self _ _) a ha)
        · exact List.mem_cons_of_mem _
            (ih seg (by rw [h]; exact List.mem_cons_of_mem _ hseg) a ha)

theorem splitInc_nl_only_last :
    ∀ (s : List Char), ∀ seg ∈ splitInc s, '\n' ∉ seg.dropLast := by
  intro s
  induction s with
  | nil => intro seg h; simp [splitInc] at h
  | cons c rest ih =>
    intro seg hseg
    by_cases hc : c = '\n'
    · simp only [splitInc, if_pos hc, List.mem_cons] at hseg
      rcases hseg with rfl | hseg
      · simp
      · exact ih seg hseg
    · cases h : splitInc rest with
      | nil =>
        simp only [splitInc, if_neg hc, h, List.mem_cons] at hseg
        rcases hseg with rfl | hseg
        · simp
        · simp at hseg
      | cons sg sgs =>
        simp only [splitInc, if_neg hc, h, List.mem_cons] at hseg
        rcases hseg with rfl | hseg
        · have hsgne : sg ≠ [] :=
            splitInc_seg_ne_nil rest sg (by rw [h]; exact List.mem_cons_self _ _)
          obtain ⟨b, l, rfl⟩ : ∃ b l, sg = b :: l := by
            match sg with
            | b :: l => exact ⟨b, l, rfl⟩
          rw [List.dropLast_cons₂]
          intro hmem
          rcases List.mem_cons.mp hmem with h' | h'
          · exact hc h'.symm
          · exact ih (b :: l) (by rw [h]; exact List.mem_cons_self _ _) h'
        · exact ih seg (by rw [h]; exact List.mem_cons_of_mem _ hseg)

theorem stripEOL_no_nl {seg : List Char} (hne : seg ≠ [])
    (hd : '\n' ∉ seg.dropLast) (hl : seg.getLast? ≠ some '\n') :
    '\n' ∉ stripEOL seg := by
  unfold stripEOL
  rw [if_neg hl]
  intro hmem
  have hsplit : seg.dropLast ++ [seg.getLast hne] = seg :=
    List.dropLast_append_getLast hne
  rw [← hsplit] at hmem
  rcases List.mem_append.mp hmem with h' | h'
  · exact hd h'
  · simp only [List.mem_singleton] at h'
    apply hl
    rw [List.getLast?_eq_getLast seg hne, h']

theorem stripEOL_drop_nl {seg : List Char}
    (hd : '\n' ∉ seg.dropLast) (hl : seg.getLast? = some '\n') :
    '\n' ∉ stripEOL seg := by
  unfold stripEOL
  rw [if_pos hl]
  split_ifs with hr
  · intro hmem
    exact hd ((List.dropLast_sublist seg.dropLast).subset hmem)
  · exact hd

theorem intercalate_singleton_nl (a : List Char) : List.intercalate ['\n'] [a] = a := by
  simp [List.intercalate]

theorem intercalate_cons_ne (a : List Char) (xs : List (List Char)) (h : xs ≠ []) :
    List.intercalate ['\n'] (a :: xs) = a ++ '\n' :: List.intercalate ['\n'] xs := by
  match xs with
  | b :: l =>
    show (List.intersperse ['\n'] (a :: b :: l)).flatten = _
    rw [List.intersperse_cons_cons, List.flatten_cons, List.flatten_cons]
    simp [List.intercalate]

theorem intercalate_cons_head (c : Char) (a : List Char) (xs : List (List Char)) :
    List.intercalate ['\n'] ((c :: a) :: xs) = c :: List.intercalate ['\n'] (a :: xs) := by
  cases xs with
  | nil => rw [intercalate_singleton_nl, intercalate_singleton_nl]
  | cons b l =>
    rw [intercalate_cons_ne (c :: a) (b :: l) (by simp),
      intercalate_cons_ne a (b :: l) (by simp)]
    simp

theorem stripEOL_cons (c : Char) (seg : List Char) (hnr : '\r' ∉ c :: seg)
    (hc : c ≠ '\n') (hne : seg ≠ []) : stripEOL (c :: seg) = c :: stripEOL seg := by
  obtain ⟨b, l, rfl⟩ : ∃ b l, seg = b :: l := by
    match seg with
    | b :: l => exact ⟨b, l, rfl⟩
  have hr1 : ∀ (m : List Char), m ⊆ c :: b :: l → m.getLast? ≠ some '\r' := by
    intro m hsub habs
    exact hnr (hsub (mem_of_last_eq habs))
  unfold stripEOL
  rw [List.getLast?_cons_cons]
  by_cases hl : (b :: l).getLast? = some '\n'
  · rw [if_pos hl, if_pos hl, List.dropLast_cons₂]
    rw [if_neg (hr1 _ (fun a ha => by
          rcases List.mem_cons.mp ha with rfl | ha
          · exact List.mem_cons_self _ _
          · exact List.mem_cons_of_mem _
              ((List.dropLast_sublist (b :: l)).subset ha)))]
    rw [if_neg (hr1 _ (fun a ha => List.mem_cons_of_mem _
          ((List.dropLast_sublist (b :: l)).subset ha)))]
  · rw [if_neg hl, if_neg hl]

theorem inter_splitInc :
    ∀ (s : List Char), '\r' ∉ s → s.getLast? ≠ some '\n' → s ≠ [] →
      List.intercalate ['\n'] ((splitInc s).map stripEOL) = s := by
  intro s
  induction s with
  | nil => intro _ _ h; exact absurd rfl h
  | cons c rest ih =>
    intro hr hl _
    by_cases hc : c = '\n'
    · subst hc
      have hrest : rest ≠ [] := by
        intro h
        subst h
        exact hl rfl
      rw [show splitInc ('\n' :: rest) = ['\n'] :: splitInc rest from by simp [splitInc]]
      rw [List.map_cons, show stripEOL ['\n'] = [] from by decide]
      rw [intercalate_cons_ne [] _ (by
        intro habs
        exact splitInc_ne_nil hrest (List.map_eq_nil.mp habs))]
      rw [List.nil_append]
      congr 1
      obtain ⟨x, xs, rfl⟩ : ∃ x xs, rest = x :: xs := by
        match rest with
        | x :: xs => exact ⟨x, xs, rfl⟩
      exact ih (fun h => hr (List.mem_cons_of_mem _ h))
        (by rwa [List.getLast?_cons_cons] at hl) (by simp)
    · by_cases hrest : rest = []
      · subst hrest
        rw [show splitInc [c] = [[c]] from by simp [splitInc, hc]]
        rw [List.map_cons, List.map_nil]
        rw [show stripEOL [c] = [c] from by
          unfold stripEOL
          rw [if_neg (by simp [hc])]]
        exact intercalate_singleton_nl [c]
      · obtain ⟨sg, sgs, hsg⟩ : ∃ sg sgs, splitInc rest = sg :: sgs := by
          match h : splitInc rest with
          | [] => exact absurd h (splitInc_ne_nil hrest)
          | sg :: sgs => exact ⟨sg, sgs, rfl⟩
        rw [show splitInc (c :: rest) = (c :: sg) :: sgs from by simp [splitInc, hc, hsg]]
        rw [List.map_cons]
        have hsg_ne : sg ≠ [] :=
          splitInc_seg_ne_nil rest sg (by rw [hsg]; exact List.mem_cons_self _ _)
        have hsg_nr : '\r' ∉ c :: sg := by
          intro hmem
          rcases List.mem_cons.mp hmem with h' | h'
          · exact hr (by rw [h']; exact List.mem_cons_self _ _)
          · exact hr (List.mem_cons_of_mem _
              (splitInc_seg_subset rest sg
                (by rw [hsg]; exact List.mem_cons_self _ _) _ h'))
        rw [stripEOL_cons c sg hsg_nr hc hsg_ne, intercalate_cons_head]
        rw [show stripEOL sg :: sgs.map stripEOL = (splitInc rest).map stripEOL from by
          rw [hsg, List.map_cons]]
        congr 1
        obtain ⟨x, xs, rfl⟩ : ∃ x xs, rest = x :: xs := by
          match rest with
          | x :: xs => exact ⟨x, xs, rfl⟩
        exact ih (fun h => hr (List.mem_cons_of_mem _ h))
          (by rwa [List.getLast?_cons_cons] at hl) (by simp)

/-- The segments produced by `rustLines` never contain a newline. -/
theorem rustLines_no_nl (s : List Char) : ∀ seg ∈ rustLines s, '\n' ∉ seg := by
  intro seg hseg
  obtain ⟨raw, hraw, rfl⟩ := List.mem_map.mp hseg
  have hne := splitInc_seg_ne_nil s raw hraw
  have hd := splitInc_nl_only_last s raw hraw
  by_cases hl : raw.getLast? = some '\n'
  · exact stripEOL_drop_nl hd hl
  · exact stripEOL_no_nl hne hd hl

/-- C2 (amended).  For every content X that contains no carriage return and
has no trailing line separator, loading X into the buffer and then saving
writes back exactly X byte-for-byte.  (The claim as stated fails for content
with embedded `\r\n`, which `load` normalises to `\n` — see the
counterexample — so `save` is the join of the loaded lines with a single `\n`
separator only after that normalisation.) -/
theorem claim_C2 (s : List Char) (hr : '\r' ∉ s) (hl : s.getLast? ≠ some '\n') :
    ∃ t, Text.load (some s) = some t ∧ Text.save t = s := by
  have hnonl : NoNL ⟨if (rustLines s).isEmpty then [Line.blank]
      else (rustLines s).map Line.new⟩ := by
    intro l hlmem
    simp only at hlmem
    split_ifs at hlmem with hemp
    · simp only [List.mem_singleton] at hlmem
      simp [hlmem, Line.blank]
    · obtain ⟨seg, hseg, rfl⟩ := List.mem_map.mp hlmem
      simpa [Line.new] using rustLines_no_nl s seg hseg
  obtain ⟨t', hupd, hcontent, _, _⟩ := update_syntax_opt_some _ hnonl
  refine ⟨t', ?_, ?_⟩
  · simpa [Text.load] using hupd
  · unfold Text.save
    rw [hcontent]
    by_cases hs : s = []
    · subst hs
      rw [show rustLines [] = [] from rfl]
      simp [Line.blank, intercalate_singleton_nl]
    · have hrne : ¬ (rustLines s).isEmpty := by
        simp only [List.isEmpty_iff]
        intro habs
        exact splitInc_ne_nil hs (List.map_eq_nil.mp habs)
      simp only [if_neg hrne]
      rw [show (((rustLines s).map Line.new).map Line.content) = rustLines s from by
        rw [List.map_map, show Line.content ∘ Line.new = id from rfl, List.map_id]]
      exact inter_splitInc s hr hl hs

/-- C2 counterexample.  The content `"a\r\nb"` has no trailing line
separator, yet `save(load(X))` yields `"a\nb" ≠ X`: Rust's `lines()` also
splits on `\r\n` and the `\r` is not restored by the `\n`-join. -/
theorem claim_C2_cex :
    (Text.load (some "a\r\nb".toList)).map Text.save = some "a\nb".toList ∧
    "a\nb".toList ≠ "a\r\nb".toList := by
  constructor
  · decide
  · decide

/-- C2 witness: `"ab\ncd"` (no carriage returns, no trailing separator)
round-trips byte-for-byte. -/
theorem claim_C2_witness :
    '\r' ∉ "ab\ncd".toList ∧ "ab\ncd".toList.getLast? ≠ some '\n' ∧
    ∃ t, Text.load (some "ab\ncd".toList) = some t ∧ Text.save t = "ab\ncd".toList :=
  ⟨by decide, by decide, claim_C2 "ab\ncd".toList (by decide) (by decide)⟩

/-- C10 witness: a zero-width viewport at offset 0 underflows; an 80×24 one
does not. -/
theorem claim_C10_witness :
    change_offset_underflow ⟨0, 0, 0, 0, 0, (0, 24)⟩ ∧
    ¬ change_offset_underflow ⟨0, 0, 0, 0, 0, (80, 24)⟩ :=
  ⟨claim_C10.1 ⟨0, 0, 0, 0, 0, (0, 24)⟩ (Or.inl ⟨rfl, rfl⟩),
   claim_C10.2 ⟨0, 0, 0, 0, 0, (80, 24)⟩ (by decide) (by decide) (by decide) (by decide)⟩

theorem findMatchesAux_ge :
    ∀ (fuel : Nat) (content : List Char) (p : Char) (ps : List Char) (start : Nat),
      ∀ m ∈ findMatchesAux fuel content p ps start, start ≤ m := by
  intro fuel
  induction fuel with
  | zero => intro content p ps start m h; simp [findMatchesAux] at h
  | succ n ih =>
    intro content p ps start m h
    rw [findMatchesAux] at h
    match h1 : findSub (content.drop start) (p :: ps) with
    | none => rw [h1] at h; simp at h
    | some r =>
      rw [h1] at h
      simp only [List.mem_cons] at h
      rcases h with rfl | h
      · omega
      · have := ih content p ps _ m h
        simp only [List.length_cons] at this
        omega

theorem findMatchesAux_fit :
    ∀ (fuel : Nat) (content : List Char) (p : Char) (ps : List Char) (start : Nat),
      ∀ m ∈ findMatchesAux fuel content p ps start, m + (ps.length + 1) ≤ content.length := by
  intro fuel
  induction fuel with
  | zero => intro content p ps start m h; simp [findMatchesAux] at h
  | succ n ih =>
    intro content p ps start m h
    rw [findMatchesAux] at h
    match h1 : findSub (content.drop start) (p :: ps) with
    | none => rw [h1] at h; simp at h
    | some r =>
      rw [h1] at h
      have hfit := findSub_le _ _ _ h1
      simp only [List.length_drop, List.length_cons] at hfit
      simp only [List.mem_cons] at h
      rcases h with rfl | h
      · omega
      · exact ih content p ps _ m h

theorem findMatchesAux_chain :
    ∀ (fuel : Nat) (content : List Char) (p : Char) (ps : List Char) (start : Nat),
      List.Chain' (fun a b => a + (ps.length + 1) ≤ b)
        (findMatchesAux fuel content p ps start) := by
  intro fuel
  induction fuel with
  | zero => intro content p ps start; simp [findMatchesAux]
  | succ n ih =>
    intro content p ps start
    rw [findMatchesAux]
    match h1 : findSub (content.drop start) (p :: ps) with
    | none => simp
    | some r =>
      rw [List.chain'_cons']
      refine ⟨?_, ih content p ps _⟩
      intro b hb
      have hmem : b ∈ findMatchesAux n content p ps (start + r + (p :: ps).length) :=
        List.mem_of_mem_head? hb
      have := findMatchesAux_ge n content p ps _ b hmem
      simp only [List.length_cons] at this
      omega

theorem mark_result_some (lines : List Line) (x y n : Nat)
    (hy : y < lines.length)
    (hx : x + n ≤ (lines.getD y Line.blank).highlight_types.length) :
    ∃ lines', mark_result lines x y n = some lines' ∧
      lines'.length = lines.length ∧
      ∀ j, (lines'.getD j Line.blank).content = (lines.getD j Line.blank).content ∧
        (lines'.getD j Line.blank).highlight_types.length =
          (lines.getD j Line.blank).highlight_types.length := by
  unfold mark_result
  rw [List.get?_eq_get hy]
  have hgd : lines.get ⟨y, hy⟩ = lines.getD y Line.blank := by
    rw [List.getD_eq_getElem _ _ hy]
    simp [List.get_eq_getElem]
  dsimp only
  rw [hgd, if_pos hx]
  refine ⟨_, rfl, by simp, ?_⟩
  intro j
  by_cases hj : j = y
  · subst hj
    rw [list_getD_set_self _ _ _ _ hy]
    constructor
    · rfl
    · simp only [List.length_append, List.length_take, List.length_replicate,
        List.length_drop]
      omega
  · rw [list_getD_set_ne _ _ _ _ _ (fun h => hj h.symm)]
    exact ⟨rfl, rfl⟩

theorem mark_all_some :
    ∀ (ms : List (Nat × Nat)) (lines : List Line) (n : Nat),
      (∀ m ∈ ms, m.2 < lines.length ∧
        m.1 + n ≤ (lines.getD m.2 Line.blank).highlight_types.length) →
      ∃ lines', mark_all lines ms n = some lines' ∧
        lines'.length = lines.length ∧
        ∀ j, (lines'.getD j Line.blank).content = (lines.getD j Line.blank).content := by
  intro ms
  induction ms with
  | nil =>
    intro lines n _
    exact ⟨lines, rfl, rfl, fun j => rfl⟩
  | cons m rest ih =>
    intro lines n hms
    obtain ⟨x, y⟩ := m
    obtain ⟨l1, h1, hlen1, hpres1⟩ :=
      mark_result_some lines x y n (hms (x, y) (List.mem_cons_self _ _)).1
        (hms (x, y) (List.mem_cons_self _ _)).2
    obtain ⟨l2, h2, hlen2, hpres2⟩ := ih l1 n (by
      intro m hm
      refine ⟨by rw [hlen1]; exact (hms m (List.mem_cons_of_mem _ hm)).1, ?_⟩
      rw [(hpres1 m.2).2]
      exact (hms m (List.mem_cons_of_mem _ hm)).2)
    refine ⟨l2, ?_, by rw [hlen2, hlen1], ?_⟩
    · unfold mark_all
      rw [h1]
      exact h2
    · intro j
      rw [hpres2 j, (hpres1 j).1]

theorem search_results_fit (t : Text) (p : Char) (ps : List Char) :
    ∀ m ∈ search_results_list t p ps, m.2 < t.lines.length ∧
      m.1 + (ps.length + 1) ≤ (t.lines.getD m.2 Line.blank).content.length := by
  intro m hm
  unfold search_results_list at hm
  obtain ⟨block, hblock, hmb⟩ := List.mem_flatten.mp hm
  obtain ⟨row, hrow, rfl⟩ := List.mem_map.mp hblock
  obtain ⟨col, hcol, rfl⟩ := List.mem_map.mp hmb
  have hrow' : row < t.lines.length := by
    simpa [Text.len] using List.mem_range.mp hrow
  have hfit := findMatchesAux_fit _ _ _ _ _ col hcol
  exact ⟨hrow', by simpa using hfit⟩

/-- On a newline-free buffer, `find_results` with a non-empty phrase succeeds
and returns the head of its own results list, keeping `index` untouched. -/
theorem find_results_some (sd : SearchData) (p : Char) (ps : List Char) (t : Text)
    (h : NoNL t) :
    ∃ sd' t', SearchData.find_results sd (p :: ps) t = some (sd', t', sd'.results.head?) ∧
      sd'.index = sd.index := by
  obtain ⟨t1, hupd, hcontent, htags, hnl⟩ := update_syntax_opt_some t h
  obtain ⟨lines', hmark, _, _⟩ := mark_all_some (search_results_list t1 p ps) t1.lines
    (ps.length + 1) (by
      intro m hm
      obtain ⟨h1, h2⟩ := search_results_fit t1 p ps m hm
      refine ⟨h1, ?_⟩
      have hmem : t1.lines.getD m.2 Line.blank ∈ t1.lines := by
        rw [List.getD_eq_getElem _ _ h1]
        exact List.getElem_mem h1
      rw [htags _ hmem]
      exact h2)
  refine ⟨{ results := search_results_list t1 p ps, index := sd.index }, ⟨lines'⟩, ?_, rfl⟩
  unfold SearchData.find_results
  rw [hupd]
  dsimp only
  rw [hmark]

/-- C7.  `find_results` with a non-empty phrase scans every line left to
right, each next search starting immediately past the previous match's end, so
matches within one line never overlap (consecutive match offsets differ by at
least the phrase length; phrase `"aa"` in line `"aaaa"` yields offsets
`[0, 2]`, not `[0, 1, 2]`); and it returns the first element of its results
when one exists and `None` otherwise (the returned value is exactly
`results.head?`). -/
theorem claim_C7 :
    (∀ (content : List Char) (p : Char) (ps : List Char) (start : Nat),
      List.Chain' (fun a b => a + (p :: ps).length ≤ b) (findMatches content p ps start)) ∧
    findMatches "aaaa".toList 'a' ['a'] 0 = [0, 2] ∧
    (∀ (sd : SearchData) (p : Char) (ps : List Char) (t : Text), NoNL t →
      ∃ sd' t', SearchData.find_results sd (p :: ps) t =
        some (sd', t', sd'.results.head?)) := by
  refine ⟨?_, by decide, ?_⟩
  · intro content p ps start
    simp only [List.length_cons]
    exact findMatchesAux_chain _ content p ps start
  · intro sd p ps t h
    obtain ⟨sd', t', heq, _⟩ := find_results_some sd p ps t h
    exact ⟨sd', t', heq⟩

/-- C7 witness: the scan part instantiated on the one-line buffer `"aaaa"`
with phrase `"aa"`. -/
theorem claim_C7_witness :
    NoNL ⟨[Line.new "aaaa".toList]⟩ ∧
    ∃ sd' t', SearchData.find_results ⟨[], 0⟩ ('a' :: ['a']) ⟨[Line.new "aaaa".toList]⟩ =
      some (sd', t', sd'.results.head?) :=
  ⟨by unfold NoNL; decide,
   claim_C7.2.2 ⟨[], 0⟩ 'a' ['a'] ⟨[Line.new "aaaa".toList]⟩ (by unfold NoNL; decide)⟩

/-- C9.  `find_results` never modifies `SearchData.index` (after any
successful call the index equals its value before the call); `get_next` on a
non-empty result list moves to `(index + 1) % count` and returns that entry;
and on a concrete session — search `"a"` in `"aaaa"`, navigate twice (index
2), re-run the same search, then `get_next` — the navigation resumes from the
stale index and yields match `(3,0)`, not `(1,0)`, the match immediately after
the first match the rescan just returned. -/
theorem claim_C9 :
    (∀ (sd : SearchData) (phrase : List Char) (t : Text)
      (out : SearchData × Text × Option (Nat × Nat)),
      SearchData.find_results sd phrase t = some out → out.1.index = sd.index) ∧
    (∀ sd : SearchData, sd.results ≠ [] →
      (SearchData.get_next sd).1.index = (sd.index + 1) % sd.results.length ∧
      (SearchData.get_next sd).2 = sd.results.get? ((sd.index + 1) % sd.results.length)) ∧
    (SearchData.find_results ⟨[], 0⟩ ['a'] ⟨[Line.new "aaaa".toList]⟩ =
      some (⟨[(0, 0), (1, 0), (2, 0), (3, 0)], 0⟩,
        ⟨[⟨"aaaa".toList, List.replicate 4 HighlightType.SearchResult⟩]⟩, some (0, 0)) ∧
     SearchData.get_next ⟨[(0, 0), (1, 0), (2, 0), (3, 0)], 0⟩ =
      (⟨[(0, 0), (1, 0), (2, 0), (3, 0)], 1⟩, some (1, 0)) ∧
     SearchData.get_next ⟨[(0, 0), (1, 0), (2, 0), (3, 0)], 1⟩ =
      (⟨[(0, 0), (1, 0), (2, 0), (3, 0)], 2⟩, some (2, 0)) ∧
     SearchData.find_results ⟨[(0, 0), (1, 0), (2, 0), (3, 0)], 2⟩ ['a']
       ⟨[⟨"aaaa".toList, List.replicate 4 HighlightType.SearchResult⟩]⟩ =
      some (⟨[(0, 0), (1, 0), (2, 0), (3, 0)], 2⟩,
        ⟨[⟨"aaaa".toList, List.replicate 4 HighlightType.SearchResult⟩]⟩, some (0, 0)) ∧
     SearchData.get_next ⟨[(0, 0), (1, 0), (2, 0), (3, 0)], 2⟩ =
      (⟨[(0, 0), (1, 0), (2, 0), (3, 0)], 3⟩, some (3, 0)) ∧
     (some ((3 : Nat), (0 : Nat)) ≠ some ((1 : Nat), (0 : Nat)))) := by
  refine ⟨?_, ?_, by decide, by decide, by decide, by decide, by decide, by decide⟩
  · intro sd phrase t out h
    unfold SearchData.find_results at h
    match h1 : Text.update_syntax_opt t with
    | none => rw [h1] at h; simp at h
    | some t1 =>
      rw [h1] at h
      match phrase with
      | [] =>
        simp only [Option.some_inj] at h
        rw [← h]
      | p :: ps =>
        dsimp only at h
        match h2 : mark_all t1.lines (search_results_list t1 p ps) (ps.length + 1) with
        | none => rw [h2] at h; simp at h
        | some lines' =>
          rw [h2] at h
          simp only [Option.some_inj] at h
          rw [← h]
  · intro sd hne
    have hlen : sd.results.length ≠ 0 := by
      simpa [List.length_eq_zero] using hne
    unfold SearchData.get_next
    rw [if_neg hlen]
    exact ⟨rfl, rfl⟩

/-- C9 witness: the `get_next` formula instantiated on a two-result state. -/
theorem claim_C9_witness :
    ([(0, 0), (1, 0)] : List (Nat × Nat)) ≠ [] ∧
    (SearchData.get_next ⟨[(0, 0), (1, 0)], 0⟩).1.index =
      ((⟨[(0, 0), (1, 0)], 0⟩ : SearchData).index + 1) %
        (⟨[(0, 0), (1, 0)], 0⟩ : SearchData).results.length ∧
    (SearchData.get_next ⟨[(0, 0), (1, 0)], 0⟩).2 =
      (⟨[(0, 0), (1, 0)], 0⟩ : SearchData).results.get?
        (((⟨[(0, 0), (1, 0)], 0⟩ : SearchData).index + 1) %
          (⟨[(0, 0), (1, 0)], 0⟩ : SearchData).results.length) :=
  ⟨by decide, (claim_C9.2.1 ⟨[(0, 0), (1, 0)], 0⟩ (by decide)).1,
    (claim_C9.2.1 ⟨[(0, 0), (1, 0)], 0⟩ (by decide)).2⟩

/-- Valid editing-surface operations: the surface feeds printable characters
and tabs to `insert_char` and routes Enter to `new_line`, so an inserted
character is never a raw line break. -/
def okOp : EditOp → Prop
  | .ins c => c ≠ '\n'
  | .enter => True
  | .backspace => True

theorem update_syntax_opt_props {t t' : Text} (h : NoNL t)
    (heq : Text.update_syntax_opt t = some t') :
    t'.lines.map Line.content = t.lines.map Line.content ∧ TagInv t' ∧ NoNL t' := by
  obtain ⟨t₂, heq₂, a, b, c⟩ := update_syntax_opt_some t h
  rw [heq] at heq₂
  injection heq₂ with h2
  subst h2
  exact ⟨a, b, c⟩

theorem NoNL_set {t : Text} (h : NoNL t) {li : Nat} {line' : Line}
    (hl : '\n' ∉ line'.content) : NoNL ⟨t.lines.set li line'⟩ := by
  intro l hmem
  rcases List.mem_or_eq_of_mem_set hmem with hm | rfl
  · exact h l hm
  · exact hl

theorem insert_char_inv {t : Text} {ch : Char} {cur : Cursor} {res : Text × Cursor}
    (h : NoNL t) (hch : ch ≠ '\n')
    (heq : Text.insert_char t ch cur = some res) :
    NoNL res.1 ∧ TagInv res.1 := by
  unfold Text.insert_char at heq
  match h1 : t.lines.get? (Cursor.get_line_index cur) with
  | none => rw [h1] at heq; simp at heq
  | some line =>
    rw [h1] at heq
    dsimp only at heq
    match h2 : (if ch = '\t' then Line.insert line (Cursor.get_position cur).1 "    ".toList
                else Line.insert line (Cursor.get_position cur).1 [ch]) with
    | none => rw [h2] at heq; simp at heq
    | some line' =>
      rw [h2] at heq
      dsimp only at heq
      have hline : line ∈ t.lines := List.get?_mem h1
      have hnl' : '\n' ∉ line'.content := by
        have hsub : ∀ (s0 : List Char), '\n' ∉ s0 →
            Line.insert line (Cursor.get_position cur).1 s0 = some line' →
            '\n' ∉ line'.content := by
          intro s0 h0 hins
          unfold Line.insert at hins
          split_ifs at hins
          simp only [Option.some_inj] at hins
          rw [← hins]
          intro hmem
          rcases List.mem_append.mp hmem with hm | hm
          · rcases List.mem_append.mp hm with hm' | hm'
            · exact h line hline (List.take_subset _ _ hm')
            · exact h0 hm'
          · exact h line hline (List.drop_subset _ _ hm)
        split_ifs at h2 with htab
        · exact hsub _ (by decide) h2
        · exact hsub _ (by
            intro hm
            rw [List.mem_singleton] at hm
            exact hch hm.symm) h2
      match h3 : Text.update_syntax_opt ⟨t.lines.set (Cursor.get_line_index cur) line'⟩ with
      | none => rw [h3] at heq; simp at heq
      | some t' =>
        rw [h3] at heq
        simp only [Option.some_inj] at heq
        obtain ⟨_, hti, hnn⟩ := update_syntax_opt_props (NoNL_set h hnl') h3
        rw [← heq]
        exact ⟨hnn, hti⟩

theorem new_line_inv {t : Text} {cur : Cursor} {res : Text × Cursor}
    (h : NoNL t) (heq : Text.new_line t cur = some res) :
    NoNL res.1 ∧ TagInv res.1 := by
  unfold Text.new_line at heq
  match h1 : t.lines.get? (Cursor.get_line_index cur) with
  | none => rw [h1] at heq; simp at heq
  | some line =>
    rw [h1] at heq
    dsimp only at heq
    match h2 : Line.split_at line (Cursor.get_position cur).1 with
    | none => rw [h2] at heq; simp at heq
    | some kn =>
      rw [h2] at heq
      dsimp only at heq
      have hline : line ∈ t.lines := List.get?_mem h1
      obtain ⟨hlt, _⟩ := List.get?_eq_some.mp h1
      unfold Line.split_at at h2
      split_ifs at h2 with hb
      simp only [Option.some_inj] at h2
      have hnl0 : NoNL ⟨(t.lines.set (Cursor.get_line_index cur) kn.1).insertIdx
          (Cursor.get_line_index cur + 1) kn.2⟩ := by
        intro l hmem
        have hle : Cursor.get_line_index cur + 1 ≤
            (t.lines.set (Cursor.get_line_index cur) kn.1).length := by
          simp only [List.length_set]
          omega
        rcases (List.mem_insertIdx hle).mp hmem with rfl | hm
        · rw [← h2]
          simp only [Line.new]
          intro hmem2
          exact h line hline (List.drop_subset _ _ hmem2)
        · rcases List.mem_or_eq_of_mem_set hm with hm' | rfl
          · exact h l hm'
          · rw [← h2]
            intro hmem2
            exact h line hline (List.take_subset _ _ hmem2)
      match h3 : Text.update_syntax_opt ⟨(t.lines.set (Cursor.get_line_index cur) kn.1).insertIdx
          (Cursor.get_line_index cur + 1) kn.2⟩ with
      | none => rw [h3] at heq; simp at heq
      | some t' =>
        rw [h3] at heq
        simp only [Option.some_inj] at heq
        obtain ⟨_, hti, hnn⟩ := update_syntax_opt_props hnl0 h3
        rw [← heq]
        exact ⟨hnn, hti⟩

theorem delete_char_inv {t : Text} {cur : Cursor} {res : Text × Cursor}
    (h : NoNL t) (heq : Text.delete_char t cur = some res) :
    NoNL res.1 ∧ TagInv res.1 := by
  unfold Text.delete_char at heq
  split_ifs at heq with hx hy
  · match h1 : t.lines.get? (Cursor.get_line_index cur) with
    | none => rw [h1] at heq; simp at heq
    | some line =>
      rw [h1] at heq
      dsimp only at heq
      match h2 : Line.delete_char line ((Cursor.get_position cur).1 - 1) with
      | none => rw [h2] at heq; simp at heq
      | some line' =>
        rw [h2] at heq
        dsimp only at heq
        have hline : line ∈ t.lines := List.get?_mem h1
        have hnl' : '\n' ∉ line'.content := by
          unfold Line.delete_char at h2
          split_ifs at h2
          simp only [Option.some_inj] at h2
          rw [← h2]
          intro hmem
          exact h line hline ((List.eraseIdx_sublist ..).subset hmem)
        match h3 : Text.update_syntax_opt ⟨t.lines.set (Cursor.get_line_index cur) line'⟩ with
        | none => rw [h3] at heq; simp at heq
        | some t' =>
          rw [h3] at heq
          simp only [Option.some_inj] at heq
          obtain ⟨_, hti, hnn⟩ := update_syntax_opt_props (NoNL_set h hnl') h3
          rw [← heq]
          exact ⟨hnn, hti⟩
  · match h1 : t.lines.get? (Cursor.get_line_index cur) with
    | none => rw [h1] at heq; simp at heq
    | some old_line =>
      rw [h1] at heq
      dsimp only at heq
      match h2 : (t.lines.eraseIdx (Cursor.get_line_index cur)).get?
          (Cursor.get_line_index cur - 1) with
      | none => rw [h2] at heq; simp at heq
      | some prev =>
        rw [h2] at heq
        dsimp only at heq
        have hold : old_line ∈ t.lines := List.get?_mem h1
        have hprev : prev ∈ t.lines :=
          (List.eraseIdx_sublist ..).subset (List.get?_mem h2)
        have hnl0 : NoNL ⟨(t.lines.eraseIdx (Cursor.get_line_index cur)).set
            (Cursor.get_line_index cur - 1) (Line.append prev old_line)⟩ := by
          intro l hmem
          rcases List.mem_or_eq_of_mem_set hmem with hm | rfl
          · exact h l ((List.eraseIdx_sublist ..).subset hm)
          · simp only [Line.append]
            intro hmem2
            rcases List.mem_append.mp hmem2 with hm' | hm'
            · exact h prev hprev hm'
            · exact h old_line hold hm'
        match h3 : Text.update_syntax_opt ⟨(t.lines.eraseIdx (Cursor.get_line_index cur)).set
            (Cursor.get_line_index cur - 1) (Line.append prev old_line)⟩ with
        | none => rw [h3] at heq; simp at heq
        | some t' =>
          rw [h3] at heq
          simp only [Option.some_inj] at heq
          obtain ⟨_, hti, hnn⟩ := update_syntax_opt_props hnl0 h3
          rw [← heq]
          exact ⟨hnn, hti⟩
  · match h3 : Text.update_syntax_opt t with
    | none => rw [h3] at heq; simp at heq
    | some t' =>
      rw [h3] at heq
      simp only [Option.some_inj] at heq
      obtain ⟨_, hti, hnn⟩ := update_syntax_opt_props h h3
      rw [← heq]
      exact ⟨hnn, hti⟩

theorem applyOp_inv {s : Text × Cursor} {op : EditOp} {res : Text × Cursor}
    (h : NoNL s.1) (hop : okOp op) (heq : applyOp s op = some res) :
    NoNL res.1 ∧ TagInv res.1 := by
  cases op with
  | ins c => exact insert_char_inv h hop heq
  | enter => exact new_line_inv h heq
  | backspace => exact delete_char_inv h heq

theorem applyOps_inv :
    ∀ (ops : List EditOp) (s res : Text × Cursor),
      NoNL s.1 → TagInv s.1 → (∀ op ∈ ops, okOp op) →
      applyOps s ops = some res → NoNL res.1 ∧ TagInv res.1 := by
  intro ops
  induction ops with
  | nil =>
    intro s res h1 h2 _ heq
    simp only [applyOps, Option.some_inj] at heq
    rw [← heq]
    exact ⟨h1, h2⟩
  | cons op rest ih =>
    intro s res h1 h2 hops heq
    unfold applyOps at heq
    match h3 : applyOp s op with
    | none => rw [h3] at heq; simp at heq
    | some s' =>
      rw [h3] at heq
      obtain ⟨hn, ht⟩ := applyOp_inv h1 (hops op (List.mem_cons_self _ _)) h3
      exact ih s' res hn ht (fun o ho => hops o (List.mem_cons_of_mem _ ho)) heq

/-- C4 (amended).  For every Line of the buffer, `len(tags) == len(content)`
holds after any completed sequence of `insert_char`, `new_line` and
`delete_char` operations in which no inserted character is itself a line
break (`'\n'`), starting from any state satisfying the invariant (such as a
fresh or freshly-loaded buffer) — each operation ends with a full
retokenization that hands one tag per character back to each line.  Inserting
a literal `'\n'` through `insert_char` breaks the invariant (the
redistribution treats it as a line separator), see the counterexample. -/
theorem claim_C4 (ops : List EditOp) (s res : Text × Cursor)
    (h1 : NoNL s.1) (h2 : TagInv s.1) (hops : ∀ op ∈ ops, okOp op)
    (heq : applyOps s ops = some res) :
    ∀ l ∈ res.1.lines, l.highlight_types.length = l.content.length :=
  (applyOps_inv ops s res h1 h2 hops heq).2

/-- C4 counterexample.  Inserting the character `'\n'` into a fresh buffer
completes successfully but leaves a line whose content has length 1 and whose
tag array has length 0. -/
theorem claim_C4_cex :
    applyOps (Text.new, Cursor.new (80, 24)) [EditOp.ins '\n'] =
      some (⟨[⟨['\n'], []⟩]⟩, ⟨1, 0, 1, 0, 0, (80, 24)⟩) ∧
    (⟨['\n'], []⟩ : Line).highlight_types.length ≠ (⟨['\n'], []⟩ : Line).content.length := by
  constructor <;> decide

/-- C4 witness: the invariant after inserting `'a'` into a fresh buffer. -/
theorem claim_C4_witness :
    NoNL (Text.new, Cursor.new (80, 24)).1 ∧
    TagInv (Text.new, Cursor.new (80, 24)).1 ∧
    applyOps (Text.new, Cursor.new (80, 24)) [EditOp.ins 'a'] =
      some (⟨[⟨['a'], [HighlightType.Identity]⟩]⟩, ⟨1, 0, 1, 0, 0, (80, 24)⟩) ∧
    (∀ l ∈ (⟨[⟨['a'], [HighlightType.Identity]⟩]⟩ : Text).lines,
      l.highlight_types.length = l.content.length) := by
  have h1 : NoNL (Text.new, Cursor.new (80, 24)).1 := by unfold NoNL; decide
  have h2 : TagInv (Text.new, Cursor.new (80, 24)).1 := by unfold TagInv; decide
  have hops : ∀ op ∈ [EditOp.ins 'a'], okOp op := by
    intro op hop
    rw [List.mem_singleton] at hop
    subst hop
    exact (by decide : ('a' : Char) ≠ '\n')
  have heq : applyOps (Text.new, Cursor.new (80, 24)) [EditOp.ins 'a'] =
      some (⟨[⟨['a'], [HighlightType.Identity]⟩]⟩, ⟨1, 0, 1, 0, 0, (80, 24)⟩) := by decide
  exact ⟨h1, h2, heq, claim_C4 [EditOp.ins 'a'] _ _ h1 h2 hops heq⟩

theorem map_eraseIdx_my {α β : Type} (f : α → β) :
    ∀ (l : List α) (n : Nat), (l.eraseIdx n).map f = (l.map f).eraseIdx n := by
  intro l
  induction l with
  | nil => intro n; simp [List.eraseIdx]
  | cons a l ih =>
    intro n
    match n with
    | 0 => simp [List.eraseIdx]
    | n + 1 => simp [List.eraseIdx, ih n]

theorem get?_eraseIdx_lt {α : Type} :
    ∀ (l : List α) (n i : Nat), i < n → (l.eraseIdx n).get? i = l.get? i := by
  intro l
  induction l with
  | nil => intro n i _; simp [List.eraseIdx]
  | cons a l ih =>
    intro n i h
    match n with
    | 0 => omega
    | n + 1 =>
      match i with
      | 0 => simp [List.eraseIdx]
      | i + 1 =>
        simp only [List.eraseIdx, List.get?_cons_succ]
        exact ih n i (by omega)

/-- C6.  `delete_char` has exactly three cases: with `render_x > 0` it removes
the character just before the cursor on the current line and moves the cursor
left by one; with `render_x = 0` and `y > 0` it appends the current line's
content to the previous line, removes the current line, and moves the cursor
to the previous line's former end; with `render_x = 0` and `y = 0` it leaves
the buffer contents and the cursor unchanged (only retokenizing).  Stated for
in-range cursors on newline-free buffers (the state every editor session
maintains); `Text.load`/`Text.new` establish these hypotheses. -/
theorem claim_C6 (t : Text) (cur : Cursor) (h : NoNL t)
    (hy : cur.y < t.lines.length) (hx : cur.render_x ≤ Text.line_len t cur.y) :
    ∃ t' cur', Text.delete_char t cur = some (t', cur') ∧
      (0 < cur.render_x →
        t'.lines.map Line.content =
          (t.lines.map Line.content).set cur.y
            (((t.lines.getD cur.y Line.blank).content).eraseIdx (cur.render_x - 1)) ∧
        cur' = Cursor.set_position cur (cur.render_x - 1) cur.y) ∧
      (cur.render_x = 0 → 0 < cur.y →
        t'.lines.map Line.content =
          ((t.lines.map Line.content).eraseIdx cur.y).set (cur.y - 1)
            ((t.lines.getD (cur.y - 1) Line.blank).content ++
              (t.lines.getD cur.y Line.blank).content) ∧
        cur' = Cursor.set_position cur
          ((t.lines.getD (cur.y - 1) Line.blank).content).length (cur.y - 1)) ∧
      (cur.render_x = 0 → cur.y = 0 →
        t'.lines.map Line.content = t.lines.map Line.content ∧ cur' = cur) := by
  have hx' : cur.render_x ≤ (t.lines.getD cur.y Line.blank).content.length := by
    unfold Text.line_len at hx
    rwa [if_pos (by simpa [Text.len] using hy)] at hx
  have hget : t.lines.get? cur.y = some (t.lines.getD cur.y Line.blank) := by
    rw [List.get?_eq_get hy, List.getD_eq_getElem _ _ hy]
    simp [List.get_eq_getElem]
  by_cases hrx : 0 < cur.render_x
  · -- case 1: delete inside the line
    have hdel : cur.render_x - 1 < (t.lines.getD cur.y Line.blank).content.length := by
      omega
    have hnl' : '\n' ∉ ((t.lines.getD cur.y Line.blank).content.eraseIdx
        (cur.render_x - 1)) := by
      intro hmem
      exact h _ (List.get?_mem hget) ((List.eraseIdx_sublist ..).subset hmem)
    obtain ⟨t', hupd, hcontent, _, _⟩ := update_syntax_opt_some
      ⟨t.lines.set cur.y ⟨(t.lines.getD cur.y Line.blank).content.eraseIdx
        (cur.render_x - 1), (t.lines.getD cur.y Line.blank).highlight_types⟩⟩
      (NoNL_set h hnl')
    refine ⟨t', Cursor.set_position cur (cur.render_x - 1) cur.y, ?_, ?_, ?_, ?_⟩
    · unfold Text.delete_char Cursor.get_position Cursor.get_line_index
      dsimp only
      rw [if_pos hrx, hget]
      dsimp only
      unfold Line.delete_char
      rw [if_pos hdel]
      dsimp only
      rw [hupd]
    · intro _
      refine ⟨?_, rfl⟩
      rw [hcontent]
      dsimp only
      rw [List.map_set]
    · intro h0 _
      omega
    · intro h0 _
      omega
  · have hrx0 : cur.render_x = 0 := by omega
    by_cases hy0 : 0 < cur.y
    · -- case 2: merge with the previous line
      have hplt : cur.y - 1 < (t.lines.eraseIdx cur.y).length := by
        have := List.length_eraseIdx_add_one hy
        omega
      have hplt' : cur.y - 1 < t.lines.length := by omega
      have hgetp : (t.lines.eraseIdx cur.y).get? (cur.y - 1) =
          some (t.lines.getD (cur.y - 1) Line.blank) := by
        rw [get?_eraseIdx_lt _ _ _ (by omega), List.get?_eq_get hplt',
          List.getD_eq_getElem _ _ hplt']
        simp [List.get_eq_getElem]
      have hnl0 : NoNL ⟨(t.lines.eraseIdx cur.y).set (cur.y - 1)
          (Line.append (t.lines.getD (cur.y - 1) Line.blank)
            (t.lines.getD cur.y Line.blank))⟩ := by
        intro l hmem
        rcases List.mem_or_eq_of_mem_set hmem with hm | rfl
        · exact h l ((List.eraseIdx_sublist ..).subset hm)
        · simp only [Line.append]
          intro hmem2
          rcases List.mem_append.mp hmem2 with hm' | hm'
          · exact h _ ((List.eraseIdx_sublist ..).subset (List.get?_mem hgetp)) hm'
          · exact h _ (List.get?_mem hget) hm'
      obtain ⟨t', hupd, hcontent, _, _⟩ := update_syntax_opt_some _ hnl0
      refine ⟨t', Cursor.set_position cur
        ((t.lines.getD (cur.y - 1) Line.blank).content).length (cur.y - 1), ?_, ?_, ?_, ?_⟩
      · unfold Text.delete_char Cursor.get_position Cursor.get_line_index
        dsimp only
        rw [if_neg hrx, if_pos hy0, hget]
        dsimp only
        rw [hgetp]
        dsimp only
        rw [hupd]
        rfl
      · intro h0
        omega
      · intro _ _
        refine ⟨?_, rfl⟩
        rw [hcontent]
        dsimp only
        rw [List.map_set, map_eraseIdx_my]
        rfl
      · intro _ h0
        omega
    · -- case 3: no-op (plus retokenization)
      have hyy : cur.y = 0 := by omega
      obtain ⟨t', hupd, hcontent, _, _⟩ := update_syntax_opt_some t h
      refine ⟨t', cur, ?_, ?_, ?_, ?_⟩
      · unfold Text.delete_char Cursor.get_position Cursor.get_line_index
        dsimp only
        rw [if_neg hrx, if_neg hy0, hupd]
      · intro h0
        omega
      · intro _ h0
        omega
      · intro _ _
        exact ⟨hcontent, rfl⟩

/-- C6 witness: the merge scenario of the claim — buffer `["ab", "cd"]`,
cursor at column 0 of line 1; `delete_char` merges into `["abcd"]` with the
cursor at `(2, 0)`. -/
theorem claim_C6_witness :
    NoNL ⟨[Line.new "ab".toList, Line.new "cd".toList]⟩ ∧
    (⟨0, 1, 0, 0, 0, (80, 24)⟩ : Cursor).y <
      (⟨[Line.new "ab".toList, Line.new "cd".toList]⟩ : Text).lines.length ∧
    ∃ t' cur', Text.delete_char ⟨[Line.new "ab".toList, Line.new "cd".toList]⟩
        ⟨0, 1, 0, 0, 0, (80, 24)⟩ = some (t', cur') ∧
      t'.lines.map Line.content = ["abcd".toList] ∧
      cur'.render_x = 2 ∧ cur'.y = 0 := by
  have h : NoNL ⟨[Line.new "ab".toList, Line.new "cd".toList]⟩ := by unfold NoNL; decide
  have hy : (⟨0, 1, 0, 0, 0, (80, 24)⟩ : Cursor).y <
      (⟨[Line.new "ab".toList, Line.new "cd".toList]⟩ : Text).lines.length := by decide
  obtain ⟨t', cur', heq, _, hcase2, _⟩ :=
    claim_C6 ⟨[Line.new "ab".toList, Line.new "cd".toList]⟩ ⟨0, 1, 0, 0, 0, (80, 24)⟩
      h hy (by decide)
  obtain ⟨hcontent, hcur⟩ := hcase2 rfl (by decide)
  refine ⟨h, hy, t', cur', heq, ?_, ?_, ?_⟩
  · rw [hcontent]
    decide
  · rw [hcur]
    decide
  · rw [hcur]
    decide

end TextEditor
